import Mathlib

/-!
# Union-find with path compression and union by rank (package union)

A shallow embedding of `src/union.go`.

* A Go `map[int]int` is a finite table of key/value entries.  It is embedded as
  `GoMap`, a list of entries in which the first entry with a given key decides
  a lookup and a store replaces the entry of its key.  The three map primitives
  the source uses are `v, ok := m[k]` (`GoMap.lookup`), `m[k]` with the zero
  value for a missing key (`GoMap.index`) and `m[k] = v` (`GoMap.store`).
* Elements and ranks are Go `int`s.  They are embedded as `Int`: elements are
  only compared and stored, and the only arithmetic of the program is
  `rank[pr]++`, whose operand is bounded by the logarithm of the number of
  elements, far from the 64-bit limit.
* The two loops of `Find` are embedded with a step budget.  `Find` supplies a
  budget of `len(parent) + 1` steps: a walk over a table with `n` keys that
  has not met a missing key after `n` steps has entered a cycle and never
  ends.  The result `none` stands for a call that does not return.
-/

namespace union

/-- A Go `map[int]int`: a finite list of entries, the first entry of a key decides. -/
structure GoMap where
  entries : List (Int × Int)
  deriving DecidableEq, Repr

namespace GoMap

/-- The map `make(map[int]int)`. -/
def empty : GoMap := ⟨[]⟩

/-- The number of entries, `len(m)`. -/
def len (m : GoMap) : Nat := m.entries.length

/-- Lookup in a list of entries. -/
def lookupList : List (Int × Int) → Int → Option Int
  | [], _ => none
  | (k, v) :: rest, x => if x = k then some v else lookupList rest x

/-- The comma-ok read `v, ok := m[k]`: `some v` when the key is present. -/
def lookup (m : GoMap) (k : Int) : Option Int := lookupList m.entries k

/-- The plain read `m[k]`: the zero value when the key is missing. -/
def index (m : GoMap) (k : Int) : Int := (m.lookup k).getD 0

/-- The assignment `m[k] = v`: the entry of `k` is replaced. -/
def store (m : GoMap) (k v : Int) : GoMap :=
  ⟨(k, v) :: m.entries.filter (fun e => decide (e.1 ≠ k))⟩

end GoMap

/-- The struct `union`: the parent table and the rank table. -/
structure Union where
  parent : GoMap
  rank : GoMap
  deriving DecidableEq, Repr

/-- The constructor `New()`: both tables empty. -/
def New : Union := ⟨GoMap.empty, GoMap.empty⟩

/-- First loop of `Find`: follow parent entries from `root` until an element
without a parent entry is found.  `none` when the step budget is used up. -/
def findRoot (parent : GoMap) : Nat → Int → Option Int
  | 0, _ => none
  | fuel + 1, root =>
    match parent.lookup root with
    | some q => findRoot parent fuel q
    | none => some root

/-- Second loop of `Find`, `for p != root`: read `q := parent[p]`, set
`parent[p] = root`, continue with `p = q`.  `none` when the step budget is used up. -/
def compress (root : Int) : Nat → GoMap → Int → Option GoMap
  | 0, _, _ => none
  | fuel + 1, parent, p =>
    if p ≠ root then
      compress root fuel (parent.store p root) (parent.index p)
    else
      some parent

/-- The method `Find`: the root of `p` together with the state after path compression. -/
def Find (u : Union) (p : Int) : Option (Int × Union) :=
  match findRoot u.parent (u.parent.len + 1) p with
  | none => none
  | some root =>
    match compress root (u.parent.len + 1) u.parent p with
    | none => none
    | some parent => some (root, ⟨parent, u.rank⟩)

/-- The method `Join`. -/
def Join (u : Union) (p q : Int) : Option Union :=
  match Find u p with
  | none => none
  | some (pr, u1) =>
    match Find u1 q with
    | none => none
    | some (qr, u2) =>
      if pr = qr then
        some u2
      else
        let parent :=
          if u2.rank.index pr < u2.rank.index qr then u2.parent.store pr qr
          else u2.parent.store qr pr
        let rank :=
          if u2.rank.index pr = u2.rank.index qr then
            u2.rank.store pr (u2.rank.index pr + 1)
          else u2.rank
        some ⟨parent, rank⟩

/-- The method `Connected`: `Find(p) == Find(q)`, operands evaluated left to right. -/
def Connected (u : Union) (p q : Int) : Option (Bool × Union) :=
  match Find u p with
  | none => none
  | some (pr, u1) =>
    match Find u1 q with
    | none => none
    | some (qr, u2) => some (decide (pr = qr), u2)

/-- A call of one of the three methods of the interface `Union`. -/
inductive Op where
  | find (p : Int)
  | join (p q : Int)
  | connected (p q : Int)
  deriving DecidableEq, Repr

/-- The state after one call (the returned value is dropped). -/
def Op.apply (u : Union) : Op → Option Union
  | Op.find p => (Find u p).map Prod.snd
  | Op.join p q => Join u p q
  | Op.connected p q => (Connected u p q).map Prod.snd

/-- The state after a sequence of calls, in order. -/
def run (u : Union) : List Op → Option Union
  | [] => some u
  | op :: ops =>
    match op.apply u with
    | none => none
    | some u1 => run u1 ops

/-- The value `Find(p)` returns in state `u`. -/
def rootOf (u : Union) (p : Int) : Option Int := (Find u p).map Prod.fst

/-- The pairs passed to `Join` in a sequence of calls. -/
def Joined (ops : List Op) (p q : Int) : Prop := Op.join p q ∈ ops

/-- One parent step: `a` has the parent entry `b`. -/
def ParentStep (m : GoMap) (a b : Int) : Prop := m.lookup a = some b

/-- The relation `Chain m a n r`: following `n` parent entries from `a` ends at `r`, which
has none. -/
inductive Chain (m : GoMap) : Int → Nat → Int → Prop
  | root {r : Int} : m.lookup r = none → Chain m r 0 r
  | step {a b r : Int} {n : Nat} : m.lookup a = some b → Chain m b n r → Chain m a (n + 1) r

/-- The element `r` is the root of `a`: the end of the parent chain of `a`. -/
def RootOf (m : GoMap) (a r : Int) : Prop := ∃ n, Chain m a n r

/-- The parent table has no cycle: every parent chain ends. -/
def Acyclic (m : GoMap) : Prop := ∀ a, ∃ r, RootOf m a r

/-- Two elements have the same root. -/
def SameRoot (m : GoMap) (a b : Int) : Prop := ∃ r, RootOf m a r ∧ RootOf m b r

/-- The state `u` represents the equivalence generated by `R`: the parent table has no
cycle and two elements have the same root exactly when `R` connects them. -/
def Represents (u : Union) (R : Int → Int → Prop) : Prop :=
  Acyclic u.parent ∧ ∀ a b, SameRoot u.parent a b ↔ Relation.EqvGen R a b

/-- The second loop of `Find` with a checked read: `none` also when `parent[p]` is read
at a key that is missing, so that the zero value would be used. -/
def compressChecked (root : Int) : Nat → GoMap → Int → Option GoMap
  | 0, _, _ => none
  | fuel + 1, parent, p =>
    if p ≠ root then
      match parent.lookup p with
      | some q => compressChecked root fuel (parent.store p root) q
      | none => none
    else
      some parent

/-- The tail of `Join` for two distinct roots `pr` and `qr`: the attachment of one root
beneath the other and the update of the rank. -/
def attach (u : Union) (pr qr : Int) : Union :=
  ⟨if u.rank.index pr < u.rank.index qr then u.parent.store pr qr else u.parent.store qr pr,
    if u.rank.index pr = u.rank.index qr then u.rank.store pr (u.rank.index pr + 1)
    else u.rank⟩

/-- The relation `Path m a n b`: following `n` parent entries from `a` leads to `b`. -/
inductive Path (m : GoMap) : Int → Nat → Int → Prop
  | here (a : Int) : Path m a 0 a
  | step {a b c : Int} {n : Nat} : m.lookup a = some b → Path m b n c → Path m a (n + 1) c

/-- Ranks grow strictly along parent entries and are never negative. -/
def RankOrdered (u : Union) : Prop :=
  (∀ x y, u.parent.lookup x = some y → u.rank.index x < u.rank.index y) ∧
    ∀ x, 0 ≤ u.rank.index x

/-- Every root `r` has a finite group, the set of the elements whose root is `r`, and the
group has at least `2 ^ rank(r)` elements. -/
def GroupsLarge (u : Union) : Prop :=
  ∀ r, u.parent.lookup r = none →
    ∃ S : Finset Int, (∀ a, a ∈ S ↔ RootOf u.parent a r) ∧
      2 ^ (u.rank.index r).toNat ≤ S.card

/-- The number of distinct values `Find(a)` returns over the elements `a` of `S`. -/
def rootCount (u : Union) (S : Finset Int) : Nat := (S.image (rootOf u)).card

/-- A sequence of `Join` calls, one for each pair. -/
def joinOps (l : List (Int × Int)) : List Op := l.map fun pq => Op.join pq.1 pq.2

/-! ## The map primitives -/

theorem lookupList_filter_ne (l : List (Int × Int)) (k x : Int) (h : x ≠ k) :
    GoMap.lookupList (l.filter (fun e => decide (e.1 ≠ k))) x = GoMap.lookupList l x := by
  induction l with
  | nil => rfl
  | cons e rest ih =>
    obtain ⟨k1, v1⟩ := e
    rw [List.filter_cons]
    by_cases hk : k1 = k
    · simp only [hk, ne_eq, not_true_eq_false, decide_False, Bool.false_eq_true, if_false,
        GoMap.lookupList, h]
      exact ih
    · simp only [ne_eq, hk, not_false_eq_true, decide_True, if_true, GoMap.lookupList, ih]

theorem lookup_store (m : GoMap) (k v x : Int) :
    (m.store k v).lookup x = if x = k then some v else m.lookup x := by
  by_cases h : x = k
  · simp [GoMap.store, GoMap.lookup, GoMap.lookupList, h]
  · simp only [GoMap.store, GoMap.lookup, GoMap.lookupList, h, if_false]
    exact lookupList_filter_ne m.entries k x h

theorem lookup_store_same (m : GoMap) (k v : Int) : (m.store k v).lookup k = some v := by
  simp [lookup_store]

theorem lookup_store_other (m : GoMap) (k v x : Int) (h : x ≠ k) :
    (m.store k v).lookup x = m.lookup x := by
  simp [lookup_store, h]

theorem lookup_empty (x : Int) : GoMap.empty.lookup x = none := rfl

theorem lookupList_mem (l : List (Int × Int)) (x v : Int)
    (h : GoMap.lookupList l x = some v) : x ∈ l.map Prod.fst := by
  induction l with
  | nil => simp [GoMap.lookupList] at h
  | cons e rest ih =>
    obtain ⟨k1, v1⟩ := e
    by_cases hk : x = k1
    · simp [hk]
    · simp only [GoMap.lookupList, hk, if_false] at h
      simp [ih h]

/-! ## Parent chains -/

theorem Chain.end_root {m : GoMap} {a r : Int} {n : Nat} (h : Chain m a n r) :
    m.lookup r = none := by
  induction h with
  | root h0 => exact h0
  | step _ _ ih => exact ih

theorem Chain.of_root {m : GoMap} {a r : Int} {n : Nat} (h : Chain m a n r)
    (ha : m.lookup a = none) : n = 0 ∧ r = a := by
  cases h with
  | root _ => exact ⟨rfl, rfl⟩
  | step hs _ => rw [ha] at hs; cases hs

theorem Chain.unique {m : GoMap} {a r : Int} {n : Nat} (h : Chain m a n r) :
    ∀ {k : Nat} {s : Int}, Chain m a k s → k = n ∧ s = r := by
  induction h with
  | root h0 =>
    intro k s hk
    exact hk.of_root h0
  | step hs _ ih =>
    intro k s hk
    cases hk with
    | root h0 => rw [h0] at hs; cases hs
    | step hs2 hc2 =>
      rw [hs] at hs2
      cases hs2
      obtain ⟨h1, h2⟩ := ih hc2
      exact ⟨by omega, h2⟩

theorem RootOf.root_unique {m : GoMap} {a r s : Int} (h1 : RootOf m a r) (h2 : RootOf m a s) :
    s = r := by
  obtain ⟨_, c1⟩ := h1
  obtain ⟨_, c2⟩ := h2
  exact (c1.unique c2).2

theorem RootOf.is_root {m : GoMap} {a r : Int} (h : RootOf m a r) : m.lookup r = none := by
  obtain ⟨_, c⟩ := h
  exact c.end_root

theorem RootOf.self {m : GoMap} {r : Int} (h : m.lookup r = none) : RootOf m r r :=
  ⟨0, Chain.root h⟩

theorem RootOf.eq_of_root {m : GoMap} {a r : Int} (h : RootOf m a r) (ha : m.lookup a = none) :
    r = a := by
  obtain ⟨_, c⟩ := h
  exact (c.of_root ha).2

theorem RootOf.root_root {m : GoMap} {a r : Int} (h : RootOf m a r) : RootOf m r r :=
  RootOf.self h.is_root

theorem RootOf.step {m : GoMap} {a b r : Int} (hs : m.lookup a = some b) (h : RootOf m b r) :
    RootOf m a r := by
  obtain ⟨n, c⟩ := h
  exact ⟨n + 1, Chain.step hs c⟩

theorem Chain.reaches {m : GoMap} {a r : Int} {n : Nat} (h : Chain m a n r) :
    Relation.ReflTransGen (ParentStep m) a r := by
  induction h with
  | root _ => exact Relation.ReflTransGen.refl
  | step hs _ ih => exact Relation.ReflTransGen.head hs ih

theorem rootOf_of_reaches {m : GoMap} {a r : Int}
    (h : Relation.ReflTransGen (ParentStep m) a r) (hr : m.lookup r = none) : RootOf m a r := by
  induction h using Relation.ReflTransGen.head_induction_on with
  | refl => exact RootOf.self hr
  | head hs _ ih => exact RootOf.step hs ih

/-! ## The root search loop -/

theorem findRoot_of_chain {m : GoMap} {a r : Int} {n : Nat} (h : Chain m a n r) :
    ∀ fuel, n < fuel → findRoot m fuel a = some r := by
  induction h with
  | root h0 =>
    intro fuel hf
    obtain ⟨f, rfl⟩ : ∃ f, fuel = f + 1 := ⟨fuel - 1, by omega⟩
    simp [findRoot, h0]
  | step hs _ ih =>
    intro fuel hf
    obtain ⟨f, rfl⟩ : ∃ f, fuel = f + 1 := ⟨fuel - 1, by omega⟩
    simp only [findRoot, hs]
    exact ih f (by omega)

theorem chain_of_findRoot {m : GoMap} :
    ∀ (fuel : Nat) (a r : Int), findRoot m fuel a = some r → ∃ n, n < fuel ∧ Chain m a n r := by
  intro fuel
  induction fuel with
  | zero => intro a r h; simp [findRoot] at h
  | succ f ih =>
    intro a r h
    cases hl : m.lookup a with
    | none =>
      simp only [findRoot, hl] at h
      cases h
      exact ⟨0, by omega, Chain.root hl⟩
    | some b =>
      simp only [findRoot, hl] at h
      obtain ⟨n, hn, c⟩ := ih b r h
      exact ⟨n + 1, by omega, Chain.step hl c⟩

/-- The elements of a parent chain other than its root are distinct keys of the table. -/
theorem chain_keys {m : GoMap} {a r : Int} {n : Nat} (h : Chain m a n r) :
    ∃ L : List Int, L.length = n ∧ L.Nodup ∧
      (∀ x ∈ L, ∃ k, k < n ∧ Chain m x (k + 1) r) := by
  induction h with
  | root _ => exact ⟨[], rfl, List.nodup_nil, by simp⟩
  | @step a b r n hs hc ih =>
    obtain ⟨L, hlen, hnd, hall⟩ := ih
    refine ⟨a :: L, by simp [hlen], ?_, ?_⟩
    · refine List.nodup_cons.mpr ⟨?_, hnd⟩
      intro hmem
      obtain ⟨k, hk, c⟩ := hall a hmem
      have := (Chain.step hs hc).unique c
      omega
    · intro x hx
      rcases List.mem_cons.mp hx with rfl | hx
      · exact ⟨n, by omega, Chain.step hs hc⟩
      · obtain ⟨k, hk, c⟩ := hall x hx
        exact ⟨k, by omega, c⟩

/-- A parent chain is no longer than the number of entries of the table. -/
theorem chain_le_len {m : GoMap} {a r : Int} {n : Nat} (h : Chain m a n r) : n ≤ m.len := by
  obtain ⟨L, hlen, hnd, hall⟩ := chain_keys h
  have hsub : L ⊆ m.entries.map Prod.fst := by
    intro x hx
    obtain ⟨k, _, c⟩ := hall x hx
    cases c with
    | step hs _ => exact lookupList_mem m.entries x _ hs
  have := (List.subperm_of_subset hnd hsub).length_le
  simpa [hlen, GoMap.len] using this

/-- The budget `Find` supplies to its first loop is enough on every chain that ends. -/
theorem findRoot_budget {m : GoMap} {a r : Int} (h : RootOf m a r) :
    findRoot m (m.len + 1) a = some r := by
  obtain ⟨n, c⟩ := h
  exact findRoot_of_chain c _ (by have := chain_le_len c; omega)

/-! ## Path compression keeps every root -/

/-- Pointing an element directly at its root shortens chains and keeps their ends. -/
theorem chain_store_fwd {m : GoMap} {p root : Int} (hp : RootOf m p root) (hne : p ≠ root)
    {x r : Int} {n : Nat} (h : Chain m x n r) :
    ∃ k, k ≤ n ∧ Chain (m.store p root) x k r := by
  have hrootp : (m.store p root).lookup root = none := by
    rw [lookup_store_other _ _ _ _ (Ne.symm hne)]
    exact hp.is_root
  induction h with
  | @root r h0 =>
    have hx : r ≠ p := by
      rintro rfl
      exact hne (hp.eq_of_root h0).symm
    exact ⟨0, le_refl _, Chain.root (by rw [lookup_store_other _ _ _ _ hx]; exact h0)⟩
  | @step a b r n hs hc ih =>
    obtain ⟨k, hk, c⟩ := ih
    by_cases hx : a = p
    · subst hx
      have hr : r = root := RootOf.root_unique hp ⟨n + 1, Chain.step hs hc⟩
      subst hr
      exact ⟨1, by omega, Chain.step (lookup_store_same _ _ _) (Chain.root hrootp)⟩
    · exact ⟨k + 1, by omega, Chain.step (by rw [lookup_store_other _ _ _ _ hx]; exact hs) c⟩

theorem chain_store_bwd {m : GoMap} {p root : Int} (hp : RootOf m p root) (hne : p ≠ root)
    {x r : Int} {n : Nat} (h : Chain (m.store p root) x n r) : RootOf m x r := by
  induction h with
  | @root r h0 =>
    have hx : r ≠ p := by
      rintro rfl
      rw [lookup_store_same] at h0
      cases h0
    rw [lookup_store_other _ _ _ _ hx] at h0
    exact RootOf.self h0
  | @step a b r n hs hc ih =>
    by_cases hx : a = p
    · subst hx
      rw [lookup_store_same] at hs
      have hb : root = b := by simpa using hs
      subst hb
      have hr : r = root := ih.eq_of_root hp.is_root
      subst hr
      exact hp
    · rw [lookup_store_other _ _ _ _ hx] at hs
      exact RootOf.step hs ih

/-- The second loop of `Find` only ever writes the root. -/
theorem compress_keeps (root : Int) :
    ∀ (fuel : Nat) (m : GoMap) (p : Int) (m2 : GoMap) (x : Int),
      compress root fuel m p = some m2 → m.lookup x = some root → m2.lookup x = some root := by
  intro fuel
  induction fuel with
  | zero => intro m p m2 x h; simp [compress] at h
  | succ f ih =>
    intro m p m2 x h hx
    by_cases hp : p = root
    · simp only [compress, hp, ne_eq, not_true_eq_false, if_false] at h
      cases h
      exact hx
    · simp only [compress, ne_eq, hp, not_false_eq_true, if_true] at h
      refine ih _ _ m2 x h ?_
      rw [lookup_store]
      split
      · rfl
      · exact hx

/-- The second loop of `Find` only changes entries of keys that are present. -/
theorem compress_absent (root : Int) :
    ∀ (fuel n : Nat) (m : GoMap) (p : Int) (m2 : GoMap) (x : Int),
      Chain m p n root → compress root fuel m p = some m2 → m.lookup x = none →
      m2.lookup x = none := by
  intro fuel
  induction fuel with
  | zero => intro n m p m2 x _ h; simp [compress] at h
  | succ f ih =>
    intro n m p m2 x hc h hx
    by_cases hp : p = root
    · simp only [compress, hp, ne_eq, not_true_eq_false, if_false] at h
      cases h
      exact hx
    · simp only [compress, ne_eq, hp, not_false_eq_true, if_true] at h
      cases hc with
      | root _ => exact absurd rfl hp
      | @step _ b _ n0 hs hc0 =>
        have hidx : m.index p = b := by simp [GoMap.index, hs]
        rw [hidx] at h
        have hroot : RootOf m p root := ⟨n0 + 1, Chain.step hs hc0⟩
        obtain ⟨k, _, c⟩ := chain_store_fwd hroot hp hc0
        have hxp : x ≠ p := by
          rintro rfl
          rw [hx] at hs
          cases hs
        exact ih k _ _ m2 x c h (by rw [lookup_store_other _ _ _ _ hxp]; exact hx)

/-- The second loop of `Find` ends within the length of the chain of `p`, and the
table it leaves has the same roots, on chains that are no longer. -/
theorem compress_spec (root : Int) :
    ∀ (fuel n : Nat) (m : GoMap) (p : Int), Chain m p n root → n < fuel →
      ∃ m2, compress root fuel m p = some m2 ∧
        (∀ x k r, Chain m x k r → ∃ j, j ≤ k ∧ Chain m2 x j r) ∧
        (∀ x r, RootOf m2 x r → RootOf m x r) := by
  intro fuel
  induction fuel with
  | zero => intro n m p _ hn; omega
  | succ f ih =>
    intro n m p hc hn
    by_cases hp : p = root
    · refine ⟨m, by simp [compress, hp], ?_, ?_⟩
      · intro x k r c
        exact ⟨k, le_refl _, c⟩
      · intro x r h
        exact h
    · cases hc with
      | root _ => exact absurd rfl hp
      | @step _ b _ n0 hs hc0 =>
        have hidx : m.index p = b := by simp [GoMap.index, hs]
        have hroot : RootOf m p root := ⟨n0 + 1, Chain.step hs hc0⟩
        obtain ⟨k, hk, c⟩ := chain_store_fwd hroot hp hc0
        obtain ⟨m2, hm2, hfwd, hbwd⟩ := ih k (m.store p root) b c (by omega)
        refine ⟨m2, ?_, ?_, ?_⟩
        · simp only [compress, ne_eq, hp, not_false_eq_true, if_true, hidx]
          exact hm2
        · intro x k1 r c1
          obtain ⟨j1, hj1, c2⟩ := chain_store_fwd hroot hp c1
          obtain ⟨j2, hj2, c3⟩ := hfwd x j1 r c2
          exact ⟨j2, by omega, c3⟩
        · intro x r h
          obtain ⟨_, c1⟩ := hbwd x r h
          exact chain_store_bwd hroot hp c1

theorem compress_head (root : Int) (fuel : Nat) (m : GoMap) (p : Int) (m2 : GoMap)
    (hp : p ≠ root) (h : compress root fuel m p = some m2) : m2.lookup p = some root := by
  cases fuel with
  | zero => simp [compress] at h
  | succ f =>
    simp only [compress, ne_eq, hp, not_false_eq_true, if_true] at h
    exact compress_keeps root f _ _ m2 p h (lookup_store_same _ _ _)

/-! ## The method Find -/

/-- What `Find(p)` does on an element whose parent chain ends at `r`. -/
theorem Find_spec {u : Union} {p r : Int} (h : RootOf u.parent p r) :
    ∃ u2, Find u p = some (r, u2) ∧ u2.rank = u.rank ∧
      (∀ x s, RootOf u2.parent x s ↔ RootOf u.parent x s) ∧
      (∀ x k s, Chain u.parent x k s → ∃ j, j ≤ k ∧ Chain u2.parent x j s) ∧
      (p ≠ r → u2.parent.lookup p = some r) ∧
      (∀ x, u.parent.lookup x = none → u2.parent.lookup x = none) := by
  obtain ⟨n, c⟩ := h
  have hn : n < u.parent.len + 1 := by have := chain_le_len c; omega
  obtain ⟨m2, hm2, hfwd, hbwd⟩ := compress_spec r _ n u.parent p c hn
  refine ⟨⟨m2, u.rank⟩, ?_, rfl, ?_, hfwd, ?_, ?_⟩
  · simp only [Find, findRoot_budget ⟨n, c⟩, hm2]
  · intro x s
    constructor
    · exact hbwd x s
    · rintro ⟨k, c1⟩
      obtain ⟨j, _, c2⟩ := hfwd x k s c1
      exact ⟨j, c2⟩
  · intro hp
    exact compress_head r _ u.parent p m2 hp hm2
  · intro x hx
    exact compress_absent r _ n u.parent p m2 x c hm2 hx

/-- Conversely, a call of `Find` that returns has followed a parent chain to its end. -/
theorem Find_some {u : Union} {p r : Int} {u2 : Union} (h : Find u p = some (r, u2)) :
    RootOf u.parent p r := by
  unfold Find at h
  cases hf : findRoot u.parent (u.parent.len + 1) p with
  | none => simp [hf] at h
  | some root =>
    obtain ⟨n, _, c⟩ := chain_of_findRoot _ _ _ hf
    cases hc : compress root (u.parent.len + 1) u.parent p with
    | none => simp [hf, hc] at h
    | some m2 =>
      simp only [hf, hc, Option.some.injEq, Prod.mk.injEq] at h
      rw [← h.1]
      exact ⟨n, c⟩

theorem acyclic_of_roots {m m2 : GoMap} (h : ∀ x s, RootOf m2 x s ↔ RootOf m x s)
    (hac : Acyclic m) : Acyclic m2 := by
  intro a
  obtain ⟨r, hr⟩ := hac a
  exact ⟨r, (h a r).mpr hr⟩

theorem acyclic_empty : Acyclic GoMap.empty := fun a => ⟨a, RootOf.self (lookup_empty a)⟩

/-! ## Attaching one root beneath another -/

theorem link_other {m : GoMap} {c t : Int} (hc : m.lookup c = none)
    {x r : Int} (h : RootOf m x r) (hr : r ≠ c) : RootOf (m.store c t) x r := by
  obtain ⟨n, ch⟩ := h
  induction ch with
  | @root r h0 =>
    exact RootOf.self (by rw [lookup_store_other _ _ _ _ hr]; exact h0)
  | @step a b r n hs _ ih =>
    have ha : a ≠ c := by
      rintro rfl
      rw [hc] at hs
      cases hs
    exact RootOf.step (by rw [lookup_store_other _ _ _ _ ha]; exact hs) (ih hr)

theorem link_child {m : GoMap} {c t : Int} (hc : m.lookup c = none) (ht : m.lookup t = none)
    (hne : c ≠ t) {x r : Int} (h : RootOf m x r) (hr : r = c) : RootOf (m.store c t) x t := by
  obtain ⟨n, ch⟩ := h
  induction ch with
  | @root r h0 =>
    subst hr
    exact RootOf.step (lookup_store_same _ _ _)
      (RootOf.self (by rw [lookup_store_other _ _ _ _ (Ne.symm hne)]; exact ht))
  | @step a b r n hs _ ih =>
    have ha : a ≠ c := by
      rintro rfl
      rw [hc] at hs
      cases hs
    exact RootOf.step (by rw [lookup_store_other _ _ _ _ ha]; exact hs) (ih hr)

/-- The roots after `parent[c] = t` for two distinct roots `c` and `t`. -/
theorem link_roots {m : GoMap} {c t : Int} (hc : m.lookup c = none) (ht : m.lookup t = none)
    (hne : c ≠ t) {x s : Int} (h : RootOf m x s) :
    RootOf (m.store c t) x (if s = c ∨ s = t then t else s) := by
  by_cases h1 : s = c
  · simp only [h1, true_or, if_true]
    exact link_child hc ht hne h h1
  · by_cases h2 : s = t
    · simp only [h2, or_true, if_true]
      subst h2
      exact link_other hc h h1
    · simp only [h1, h2, or_self, if_false]
      exact link_other hc h h1

/-! ## The methods Join and Connected -/

/-- What `Join(p, q)` does to the roots: the elements of the two groups get the common
root `t`, one of the two old roots, and every other element keeps its root. -/
theorem Join_spec {u : Union} {p q pr qr : Int}
    (hp : RootOf u.parent p pr) (hq : RootOf u.parent q qr) :
    ∃ u2 t, Join u p q = some u2 ∧ (t = pr ∨ t = qr) ∧
      (∀ x s, RootOf u.parent x s → RootOf u2.parent x (if s = pr ∨ s = qr then t else s)) ∧
      (pr = qr → u2.rank = u.rank) := by
  obtain ⟨u1, hF1, hrank1, hroots1, -, -, -⟩ := Find_spec hp
  have hq1 : RootOf u1.parent q qr := (hroots1 q qr).mpr hq
  obtain ⟨u2, hF2, hrank2, hroots2, -, -, -⟩ := Find_spec hq1
  have hto : ∀ x s, RootOf u.parent x s → RootOf u2.parent x s := fun x s h =>
    (hroots2 x s).mpr ((hroots1 x s).mpr h)
  have hpr : u2.parent.lookup pr = none := (hto p pr hp).is_root
  have hqr : u2.parent.lookup qr = none := (hto q qr hq).is_root
  by_cases he : pr = qr
  · refine ⟨u2, pr, by simp [Join, hF1, hF2, he], Or.inl rfl, ?_, ?_⟩
    · intro x s h
      have := hto x s h
      split
      · rename_i hs
        rcases hs with hs | hs
        · rw [hs] at this; exact this
        · rw [hs, ← he] at this; exact this
      · exact this
    · intro _
      rw [hrank2, hrank1]
  · by_cases hlt : u2.rank.index pr < u2.rank.index qr
    · refine ⟨⟨u2.parent.store pr qr, (if u2.rank.index pr = u2.rank.index qr then
        u2.rank.store pr (u2.rank.index pr + 1) else u2.rank)⟩, qr,
        by simp only [Join, hF1, hF2, he, if_false, hlt, if_true], Or.inr rfl,
        ?_, fun h => absurd h he⟩
      intro x s h
      exact link_roots hpr hqr he (hto x s h)
    · refine ⟨⟨u2.parent.store qr pr, (if u2.rank.index pr = u2.rank.index qr then
        u2.rank.store pr (u2.rank.index pr + 1) else u2.rank)⟩, pr,
        by simp only [Join, hF1, hF2, he, if_false, hlt], Or.inl rfl,
        ?_, fun h => absurd h he⟩
      intro x s h
      have := link_roots hqr hpr (Ne.symm he) (hto x s h)
      simpa only [or_comm] using this

/-- What `Connected(p, q)` does: it compares the two roots and keeps every root. -/
theorem Connected_spec {u : Union} {p q pr qr : Int}
    (hp : RootOf u.parent p pr) (hq : RootOf u.parent q qr) :
    ∃ u2, Connected u p q = some (decide (pr = qr), u2) ∧ u2.rank = u.rank ∧
      (∀ x s, RootOf u2.parent x s ↔ RootOf u.parent x s) := by
  obtain ⟨u1, hF1, hrank1, hroots1, -, -, -⟩ := Find_spec hp
  have hq1 : RootOf u1.parent q qr := (hroots1 q qr).mpr hq
  obtain ⟨u2, hF2, hrank2, hroots2, -, -, -⟩ := Find_spec hq1
  refine ⟨u2, by simp only [Connected, hF1, hF2], by rw [hrank2, hrank1], ?_⟩
  intro x s
  rw [hroots2, hroots1]

/-! ## Having the same root -/

theorem sameRoot_iff {m : GoMap} {a b ra rb : Int} (ha : RootOf m a ra) (hb : RootOf m b rb) :
    SameRoot m a b ↔ ra = rb := by
  constructor
  · rintro ⟨r, h1, h2⟩
    rw [← RootOf.root_unique ha h1, ← RootOf.root_unique hb h2]
  · intro h
    exact ⟨ra, ha, by rw [h]; exact hb⟩

theorem SameRoot.refl {m : GoMap} (hac : Acyclic m) (a : Int) : SameRoot m a a := by
  obtain ⟨r, hr⟩ := hac a
  exact ⟨r, hr, hr⟩

theorem SameRoot.symm {m : GoMap} {a b : Int} (h : SameRoot m a b) : SameRoot m b a := by
  obtain ⟨r, h1, h2⟩ := h
  exact ⟨r, h2, h1⟩

theorem SameRoot.trans {m : GoMap} {a b c : Int} (h1 : SameRoot m a b) (h2 : SameRoot m b c) :
    SameRoot m a c := by
  obtain ⟨r, ha, hb⟩ := h1
  obtain ⟨s, hb2, hc⟩ := h2
  have : s = r := RootOf.root_unique hb hb2
  subst this
  exact ⟨s, ha, hc⟩

/-! ## The represented equivalence along a sequence of calls -/

theorem Represents.congr {u : Union} {R S : Int → Int → Prop} (h : Represents u R)
    (hRS : ∀ a b, R a b ↔ S a b) : Represents u S := by
  refine ⟨h.1, fun a b => ?_⟩
  rw [h.2]
  exact ⟨Relation.EqvGen.mono fun x y => (hRS x y).mp,
    Relation.EqvGen.mono fun x y => (hRS x y).mpr⟩

theorem Represents.of_roots {u u2 : Union} {R : Int → Int → Prop} (h : Represents u R)
    (hroots : ∀ x s, RootOf u2.parent x s ↔ RootOf u.parent x s) : Represents u2 R := by
  refine ⟨acyclic_of_roots hroots h.1, fun a b => ?_⟩
  rw [← h.2]
  unfold SameRoot
  simp only [hroots]

theorem eqvGen_false {a b : Int} (h : Relation.EqvGen (fun _ _ : Int => False) a b) :
    a = b := by
  induction h with
  | rel _ _ h => exact h.elim
  | refl _ => rfl
  | symm _ _ _ ih => exact ih.symm
  | trans _ _ _ _ _ ih1 ih2 => exact ih1.trans ih2

theorem represents_New : Represents New (fun _ _ => False) := by
  refine ⟨acyclic_empty, fun a b => ?_⟩
  have ha : RootOf New.parent a a := RootOf.self (lookup_empty a)
  have hb : RootOf New.parent b b := RootOf.self (lookup_empty b)
  rw [sameRoot_iff ha hb]
  constructor
  · rintro rfl
    exact Relation.EqvGen.refl _
  · exact eqvGen_false

theorem Represents.find {u : Union} {R : Int → Int → Prop} (h : Represents u R) (p : Int) :
    ∃ r u2, Find u p = some (r, u2) ∧ Represents u2 R := by
  obtain ⟨r, hr⟩ := h.1 p
  obtain ⟨u2, hF, -, hroots, -, -, -⟩ := Find_spec hr
  exact ⟨r, u2, hF, h.of_roots hroots⟩

theorem Represents.connected {u : Union} {R : Int → Int → Prop} (h : Represents u R)
    (p q : Int) :
    ∃ res u2, Connected u p q = some (res, u2) ∧ (res = true ↔ Relation.EqvGen R p q) ∧
      Represents u2 R := by
  obtain ⟨pr, hp⟩ := h.1 p
  obtain ⟨qr, hq⟩ := h.1 q
  obtain ⟨u2, hC, -, hroots⟩ := Connected_spec hp hq
  refine ⟨decide (pr = qr), u2, hC, ?_, h.of_roots hroots⟩
  rw [← h.2, sameRoot_iff hp hq, decide_eq_true_iff]

theorem Represents.join {u : Union} {R : Int → Int → Prop} (h : Represents u R) (p q : Int) :
    ∃ u2, Join u p q = some u2 ∧ Represents u2 (fun a b => R a b ∨ (a = p ∧ b = q)) := by
  obtain ⟨pr, hp⟩ := h.1 p
  obtain ⟨qr, hq⟩ := h.1 q
  obtain ⟨u2, t, hJ, ht, hmap, -⟩ := Join_spec hp hq
  have hac2 : Acyclic u2.parent := by
    intro a
    obtain ⟨s, hs⟩ := h.1 a
    exact ⟨_, hmap a s hs⟩
  have hmono : ∀ a b, Relation.EqvGen R a b →
      Relation.EqvGen (fun a b => R a b ∨ (a = p ∧ b = q)) a b :=
    fun a b => Relation.EqvGen.mono fun x y hxy => Or.inl hxy
  have hpq : Relation.EqvGen (fun a b => R a b ∨ (a = p ∧ b = q)) p q :=
    Relation.EqvGen.rel _ _ (Or.inr ⟨rfl, rfl⟩)
  have hnear : ∀ x rx, RootOf u.parent x rx → (rx = pr ∨ rx = qr) →
      Relation.EqvGen (fun a b => R a b ∨ (a = p ∧ b = q)) x p := by
    intro x rx hx hrx
    rcases hrx with rfl | rfl
    · exact hmono _ _ ((h.2 x p).mp ⟨rx, hx, hp⟩)
    · exact Relation.EqvGen.trans _ _ _ (hmono _ _ ((h.2 x q).mp ⟨rx, hx, hq⟩))
        (Relation.EqvGen.symm _ _ hpq)
  have hback : ∀ x y, Relation.EqvGen (fun a b => R a b ∨ (a = p ∧ b = q)) x y →
      SameRoot u2.parent x y := by
    intro x y hE
    induction hE with
    | rel x y hxy =>
      obtain ⟨rx, hx⟩ := h.1 x
      obtain ⟨ry, hy⟩ := h.1 y
      refine (sameRoot_iff (hmap x rx hx) (hmap y ry hy)).mpr ?_
      rcases hxy with hR | ⟨rfl, rfl⟩
      · have : rx = ry :=
          (sameRoot_iff hx hy).mp ((h.2 x y).mpr (Relation.EqvGen.rel _ _ hR))
        rw [this]
      · have h1 : rx = pr := RootOf.root_unique hp hx
        have h2 : ry = qr := RootOf.root_unique hq hy
        simp [h1, h2]
    | refl x => exact SameRoot.refl hac2 x
    | symm x y _ ih => exact ih.symm
    | trans x y z _ _ ih1 ih2 => exact ih1.trans ih2
  refine ⟨u2, hJ, hac2, fun a b => ?_⟩
  obtain ⟨ra, ha⟩ := h.1 a
  obtain ⟨rb, hb⟩ := h.1 b
  rw [sameRoot_iff (hmap a ra ha) (hmap b rb hb)]
  constructor
  · intro heq
    by_cases h1 : ra = pr ∨ ra = qr
    · by_cases h2 : rb = pr ∨ rb = qr
      · exact Relation.EqvGen.trans _ _ _ (hnear a ra ha h1)
          (Relation.EqvGen.symm _ _ (hnear b rb hb h2))
      · simp only [h1, h2, if_true, if_false] at heq
        rw [heq] at ht
        exact absurd ht h2
    · by_cases h2 : rb = pr ∨ rb = qr
      · simp only [h1, h2, if_true, if_false] at heq
        rw [← heq] at ht
        exact absurd ht h1
      · simp only [h1, h2, if_false] at heq
        exact hmono _ _ ((h.2 a b).mp ((sameRoot_iff ha hb).mpr heq))
  · intro hE
    exact (sameRoot_iff (hmap a ra ha) (hmap b rb hb)).mp (hback a b hE)

theorem Represents.apply {u : Union} {R : Int → Int → Prop} (h : Represents u R) (op : Op) :
    ∃ u2, op.apply u = some u2 ∧ Represents u2 (fun a b => R a b ∨ op = Op.join a b) := by
  cases op with
  | find p =>
    obtain ⟨r, u2, hF, h2⟩ := h.find p
    exact ⟨u2, by simp [Op.apply, hF], h2.congr (by simp)⟩
  | join p q =>
    obtain ⟨u2, hJ, h2⟩ := h.join p q
    refine ⟨u2, by simp [Op.apply, hJ], h2.congr ?_⟩
    intro a b
    simp only [Op.join.injEq]
    constructor <;> rintro (hR | ⟨h1, h2⟩)
    · exact Or.inl hR
    · exact Or.inr ⟨h1.symm, h2.symm⟩
    · exact Or.inl hR
    · exact Or.inr ⟨h1.symm, h2.symm⟩
  | connected p q =>
    obtain ⟨res, u2, hC, -, h2⟩ := h.connected p q
    exact ⟨u2, by simp [Op.apply, hC], h2.congr (by simp)⟩

theorem Represents.run {R : Int → Int → Prop} :
    ∀ (ops : List Op) (u : Union), Represents u R →
      ∃ u2, run u ops = some u2 ∧ Represents u2 (fun a b => R a b ∨ Joined ops a b) := by
  intro ops
  induction ops generalizing R with
  | nil =>
    intro u h
    exact ⟨u, rfl, h.congr (by simp [Joined])⟩
  | cons op ops ih =>
    intro u h
    obtain ⟨u1, h1, hrep1⟩ := h.apply op
    obtain ⟨u2, h2, hrep2⟩ := ih u1 hrep1
    refine ⟨u2, by simp only [union.run, h1, h2], hrep2.congr ?_⟩
    intro a b
    simp only [Joined, List.mem_cons]
    constructor
    · rintro ((hR | hop) | hmem)
      · exact Or.inl hR
      · exact Or.inr (Or.inl hop.symm)
      · exact Or.inr (Or.inr hmem)
    · rintro (hR | hop | hmem)
      · exact Or.inl (Or.inl hR)
      · exact Or.inl (Or.inr hop.symm)
      · exact Or.inr hmem

/-- Every sequence of calls on `New()` returns, and the state it leaves represents the
equivalence generated by the pairs passed to `Join`. -/
theorem run_New (ops : List Op) :
    ∃ u, run New ops = some u ∧ Represents u (Joined ops) := by
  obtain ⟨u, hrun, hrep⟩ := Represents.run ops New represents_New
  exact ⟨u, hrun, hrep.congr (by simp)⟩

/-! ## Auxiliary facts on the value and the writes of Find -/

theorem rootOf_eq {u : Union} {a r : Int} (h : RootOf u.parent a r) : rootOf u a = some r := by
  obtain ⟨u2, hF, -⟩ := Find_spec h
  simp [rootOf, hF]

/-- Every entry after the second loop of `Find` is the old entry or points at the root. -/
theorem compress_writes (root : Int) :
    ∀ (fuel : Nat) (m : GoMap) (p : Int) (m2 : GoMap) (x : Int),
      compress root fuel m p = some m2 →
      m2.lookup x = m.lookup x ∨ m2.lookup x = some root := by
  intro fuel
  induction fuel with
  | zero => intro m p m2 x h; simp [compress] at h
  | succ f ih =>
    intro m p m2 x h
    by_cases hp : p = root
    · simp only [compress, hp, ne_eq, not_true_eq_false, if_false] at h
      cases h
      exact Or.inl rfl
    · simp only [compress, ne_eq, hp, not_false_eq_true, if_true] at h
      rcases ih _ _ m2 x h with h1 | h1
      · rw [lookup_store] at h1
        by_cases hx : x = p
        · right
          simpa [hx] using h1
        · left
          simpa [hx] using h1
      · exact Or.inr h1

theorem Find_writes {u : Union} {p r : Int} {u2 : Union} (h : Find u p = some (r, u2)) (x : Int) :
    u2.parent.lookup x = u.parent.lookup x ∨ u2.parent.lookup x = some r := by
  unfold Find at h
  cases hf : findRoot u.parent (u.parent.len + 1) p with
  | none => simp [hf] at h
  | some root =>
    cases hc : compress root (u.parent.len + 1) u.parent p with
    | none => simp [hf, hc] at h
    | some m2 =>
      simp only [hf, hc, Option.some.injEq, Prod.mk.injEq] at h
      obtain ⟨h1, h2⟩ := h
      subst h1
      subst h2
      exact compress_writes root _ _ _ m2 x hc

theorem Represents.connected_some {u u1 : Union} {R : Int → Int → Prop} (h : Represents u R)
    {a b : Int} {res : Bool} (hC : Connected u a b = some (res, u1)) :
    Represents u1 R ∧ (res = true ↔ Relation.EqvGen R a b) := by
  obtain ⟨res2, u2, hC2, hres, hrep⟩ := h.connected a b
  rw [hC] at hC2
  simp only [Option.some.injEq, Prod.mk.injEq] at hC2
  obtain ⟨h1, h2⟩ := hC2
  subst h1
  subst h2
  exact ⟨hrep, hres⟩

/-! ## The claims -/

/-- C1: after any finite sequence of Find, Join and Connected calls on `New()`, the call
`Connected(a, b)` returns, and it returns true exactly when `(a, b)` lies in the
reflexive-symmetric-transitive closure of the pairs passed to Join in that sequence. -/
theorem connected_iff_join_closure (ops : List Op) (a b : Int) :
    ∃ u res u2, run New ops = some u ∧ Connected u a b = some (res, u2) ∧
      (res = true ↔ Relation.EqvGen (Joined ops) a b) := by
  obtain ⟨u, hrun, hrep⟩ := run_New ops
  obtain ⟨res, u2, hC, hres, -⟩ := hrep.connected a b
  exact ⟨u, res, u2, hrun, hC, hres⟩

/-- C2: in every state reachable from `New()`, after `Join(p, q)` both `Connected(q, p)` and
`Connected(p, q)` return true, and the same holds after `Join(q, p)`. -/
theorem join_then_connected (ops : List Op) (p q : Int) :
    ∃ u, run New ops = some u ∧
      (∃ u1, Join u p q = some u1 ∧ (∃ u2, Connected u1 q p = some (true, u2)) ∧
        (∃ u2, Connected u1 p q = some (true, u2))) ∧
      (∃ u1, Join u q p = some u1 ∧ (∃ u2, Connected u1 q p = some (true, u2)) ∧
        (∃ u2, Connected u1 p q = some (true, u2))) := by
  obtain ⟨u, hrun, hrep⟩ := run_New ops
  have key : ∀ x y, ∃ u1, Join u x y = some u1 ∧ (∃ u2, Connected u1 y x = some (true, u2)) ∧
      (∃ u2, Connected u1 x y = some (true, u2)) := by
    intro x y
    obtain ⟨u1, hJ, hrep1⟩ := hrep.join x y
    have hxy : Relation.EqvGen (fun a b => Joined ops a b ∨ (a = x ∧ b = y)) x y :=
      Relation.EqvGen.rel _ _ (Or.inr ⟨rfl, rfl⟩)
    obtain ⟨res1, u2, hC1, hres1, -⟩ := hrep1.connected y x
    obtain ⟨res2, u3, hC2, hres2, -⟩ := hrep1.connected x y
    have e1 : res1 = true := hres1.mpr (Relation.EqvGen.symm _ _ hxy)
    have e2 : res2 = true := hres2.mpr hxy
    subst e1
    subst e2
    exact ⟨u1, hJ, ⟨u2, hC1⟩, ⟨u3, hC2⟩⟩
  refine ⟨u, hrun, key p q, ?_⟩
  obtain ⟨u1, hJ, h1, h2⟩ := key q p
  exact ⟨u1, hJ, h2, h1⟩

/-- C3: in every state reachable from `New()`, `Find(p)` returns the element `r` reached from
`p` through zero or more parent steps of the state before the call that has no parent entry,
before and after the call; `r` is the only such element, and it is the value the root search
alone, without the compression loop, returns on every sufficient step budget. -/
theorem find_returns_chain_end (ops : List Op) (p : Int) :
    ∃ u r u2, run New ops = some u ∧ Find u p = some (r, u2) ∧
      Relation.ReflTransGen (ParentStep u.parent) p r ∧
      u.parent.lookup r = none ∧ u2.parent.lookup r = none ∧
      (∀ s, Relation.ReflTransGen (ParentStep u.parent) p s → u.parent.lookup s = none → s = r) ∧
      (∀ fuel, u.parent.len < fuel → findRoot u.parent fuel p = some r) := by
  obtain ⟨u, hrun, hrep⟩ := run_New ops
  obtain ⟨r, hr⟩ := hrep.1 p
  obtain ⟨u2, hF, -, -, -, -, habs⟩ := Find_spec hr
  obtain ⟨n, c⟩ := hr
  refine ⟨u, r, u2, hrun, hF, c.reaches, c.end_root, habs r c.end_root, ?_, ?_⟩
  · intro s hs hs0
    exact RootOf.root_unique ⟨n, c⟩ (rootOf_of_reaches hs hs0)
  · intro fuel hfuel
    exact findRoot_of_chain c fuel (by have := chain_le_len c; omega)

/-- C4: in every state, for every `p` without an entry in the parent map, `Find(p)` returns
`p` and leaves the parent map and the rank map unchanged. -/
theorem find_without_entry (u : Union) (p : Int) (h : u.parent.lookup p = none) :
    Find u p = some (p, u) := by
  simp [Find, findRoot, compress, h]

theorem find_without_entry_witness :
    (New.parent.lookup 5 = none ∧ Find New 5 = some (5, New)) ∧
    ((⟨⟨[(2, 1)]⟩, ⟨[(1, 1)]⟩⟩ : Union).parent.lookup 1 = none ∧
      Find ⟨⟨[(2, 1)]⟩, ⟨[(1, 1)]⟩⟩ 1 = some (1, ⟨⟨[(2, 1)]⟩, ⟨[(1, 1)]⟩⟩)) :=
  ⟨⟨by decide, find_without_entry New 5 (by decide)⟩,
    ⟨by decide, find_without_entry ⟨⟨[(2, 1)]⟩, ⟨[(1, 1)]⟩⟩ 1 (by decide)⟩⟩

/-- C5: in every state reachable from `New()`, a call `Find(p)` or `Connected(p, q)` leaves
the rank map unchanged and the value `Find(a)` returns for every element `a` the same. -/
theorem find_connected_keep_roots (ops : List Op) (p q a : Int) :
    ∃ u ra, run New ops = some u ∧ rootOf u a = some ra ∧
      (∃ r u1, Find u p = some (r, u1) ∧ u1.rank = u.rank ∧ rootOf u1 a = some ra) ∧
      (∃ res u2, Connected u p q = some (res, u2) ∧ u2.rank = u.rank ∧
        rootOf u2 a = some ra) := by
  obtain ⟨u, hrun, hrep⟩ := run_New ops
  obtain ⟨ra, ha⟩ := hrep.1 a
  obtain ⟨pr, hp⟩ := hrep.1 p
  obtain ⟨qr, hq⟩ := hrep.1 q
  obtain ⟨u1, hF, hrank1, hroots1, -⟩ := Find_spec hp
  obtain ⟨u2, hC, hrank2, hroots2⟩ := Connected_spec hp hq
  exact ⟨u, ra, hrun, rootOf_eq ha,
    ⟨pr, u1, hF, hrank1, rootOf_eq ((hroots1 a ra).mpr ha)⟩,
    ⟨_, u2, hC, hrank2, rootOf_eq ((hroots2 a ra).mpr ha)⟩⟩

/-- C6: in every state reachable from `New()`, if `Find(a)` differs from both `Find(p)` and
`Find(q)` before `Join(p, q)`, then `Find(a)` after the Join equals `Find(a)` before it; and
if `Find(a)` is one of `Find(p)`, `Find(q)` before the Join, then `Find(a)` after the Join is
one of these two old roots. -/
theorem join_frame (ops : List Op) (p q a : Int) :
    ∃ u u2 pr qr ra ra2, run New ops = some u ∧ Join u p q = some u2 ∧
      rootOf u p = some pr ∧ rootOf u q = some qr ∧
      rootOf u a = some ra ∧ rootOf u2 a = some ra2 ∧
      (ra ≠ pr → ra ≠ qr → ra2 = ra) ∧
      (ra = pr ∨ ra = qr → ra2 = pr ∨ ra2 = qr) := by
  obtain ⟨u, hrun, hrep⟩ := run_New ops
  obtain ⟨ra, ha⟩ := hrep.1 a
  obtain ⟨pr, hp⟩ := hrep.1 p
  obtain ⟨qr, hq⟩ := hrep.1 q
  obtain ⟨u2, t, hJ, ht, hmap, -⟩ := Join_spec hp hq
  refine ⟨u, u2, pr, qr, ra, _, hrun, hJ, rootOf_eq hp, rootOf_eq hq, rootOf_eq ha,
    rootOf_eq (hmap a ra ha), ?_, ?_⟩
  · intro h1 h2
    simp [h1, h2]
  · intro h
    simp only [h, if_true]
    exact ht

/-- C7: in every state reachable from `New()`, if `Connected(a, b)` returns true and then
`Connected(b, c)` returns true, then a following `Connected(a, c)` returns true, each call
evaluated on the state the previous one left. -/
theorem connected_transitive (ops : List Op) (a b c : Int) (u u1 u2 : Union)
    (hrun : run New ops = some u)
    (hab : Connected u a b = some (true, u1))
    (hbc : Connected u1 b c = some (true, u2)) :
    ∃ u3, Connected u2 a c = some (true, u3) := by
  obtain ⟨v, hv, hrep⟩ := run_New ops
  rw [hrun] at hv
  cases hv
  obtain ⟨hrep1, h1⟩ := hrep.connected_some hab
  obtain ⟨hrep2, h2⟩ := hrep1.connected_some hbc
  obtain ⟨res, u3, hC, hres, -⟩ := hrep2.connected a c
  have e : res = true := hres.mpr (Relation.EqvGen.trans _ _ _ (h1.mp rfl) (h2.mp rfl))
  subst e
  exact ⟨u3, hC⟩

theorem connected_transitive_witness :
    run New [Op.join 1 2, Op.join 3 4, Op.join 2 3] =
        some ⟨⟨[(3, 1), (2, 1), (4, 3)]⟩, ⟨[(1, 2), (3, 1)]⟩⟩ ∧
      Connected ⟨⟨[(3, 1), (2, 1), (4, 3)]⟩, ⟨[(1, 2), (3, 1)]⟩⟩ 2 3 =
        some (true, ⟨⟨[(3, 1), (2, 1), (4, 3)]⟩, ⟨[(1, 2), (3, 1)]⟩⟩) ∧
      Connected ⟨⟨[(3, 1), (2, 1), (4, 3)]⟩, ⟨[(1, 2), (3, 1)]⟩⟩ 3 4 =
        some (true, ⟨⟨[(3, 1), (4, 1), (2, 1)]⟩, ⟨[(1, 2), (3, 1)]⟩⟩) ∧
      ∃ u3, Connected ⟨⟨[(3, 1), (4, 1), (2, 1)]⟩, ⟨[(1, 2), (3, 1)]⟩⟩ 2 4 = some (true, u3) :=
  ⟨by decide, by decide, by decide,
    connected_transitive [Op.join 1 2, Op.join 3 4, Op.join 2 3] 2 3 4
      ⟨⟨[(3, 1), (2, 1), (4, 3)]⟩, ⟨[(1, 2), (3, 1)]⟩⟩
      ⟨⟨[(3, 1), (2, 1), (4, 3)]⟩, ⟨[(1, 2), (3, 1)]⟩⟩
      ⟨⟨[(3, 1), (4, 1), (2, 1)]⟩, ⟨[(1, 2), (3, 1)]⟩⟩
      (by decide) (by decide) (by decide)⟩

/-- C8: in every state reachable from `New()` and for every `p`, also one never referenced
before, `Connected(p, p)` returns true. -/
theorem connected_reflexive (ops : List Op) (p : Int) :
    ∃ u u2, run New ops = some u ∧ Connected u p p = some (true, u2) := by
  obtain ⟨u, hrun, hrep⟩ := run_New ops
  obtain ⟨res, u2, hC, hres, -⟩ := hrep.connected p p
  have e : res = true := hres.mpr (Relation.EqvGen.refl _)
  subst e
  exact ⟨u, u2, hrun, hC⟩

/-- C9, as stated, fails for an element that is its own root: on `New()`, `Find(5)` returns
5 and the parent map has no entry for 5 afterwards, so `parent[5]` is not 5. -/
theorem find_twice_counterexample :
    Find New 5 = some (5, New) ∧ New.parent.lookup 5 = none ∧
      New.parent.lookup 5 ≠ some 5 ∧ New.parent.index 5 ≠ 5 := by
  decide

/-- C9, amended: in every state reachable from `New()`, after `Find(p)` returned `r` a second
`Find(p)` returns `r` again and `r` has no parent entry; when `p` differs from `r` the parent
map maps `p` directly to `r`, and when `p` is `r` itself `p` has no parent entry. -/
theorem find_twice (ops : List Op) (p : Int) :
    ∃ u r u1 u2, run New ops = some u ∧ Find u p = some (r, u1) ∧ Find u1 p = some (r, u2) ∧
      u1.parent.lookup r = none ∧
      (p ≠ r → u1.parent.lookup p = some r) ∧
      (p = r → u1.parent.lookup p = none) := by
  obtain ⟨u, hrun, hrep⟩ := run_New ops
  obtain ⟨r, hr⟩ := hrep.1 p
  obtain ⟨u1, hF, -, hroots, -, hhead, habs⟩ := Find_spec hr
  obtain ⟨u2, hF2, -⟩ := Find_spec ((hroots p r).mpr hr)
  refine ⟨u, r, u1, u2, hrun, hF, hF2, habs r hr.is_root, hhead, ?_⟩
  intro h
  rw [h]
  exact habs r hr.is_root

/-- C10, as stated, fails: after `Join(1,2)`, `Join(3,4)`, `Join(1,3)` the element 4 has the
parent entry 3, and `Join(4, 4)` compresses its chain, leaving the parent entry 1. -/
theorem join_self_counterexample :
    run New [Op.join 1 2, Op.join 3 4, Op.join 1 3] =
        some ⟨⟨[(3, 1), (4, 3), (2, 1)]⟩, ⟨[(1, 2), (3, 1)]⟩⟩ ∧
      Join ⟨⟨[(3, 1), (4, 3), (2, 1)]⟩, ⟨[(1, 2), (3, 1)]⟩⟩ 4 4 =
        some ⟨⟨[(4, 1), (3, 1), (2, 1)]⟩, ⟨[(1, 2), (3, 1)]⟩⟩ ∧
      (⟨[(3, 1), (4, 3), (2, 1)]⟩ : GoMap).lookup 4 = some 3 ∧
      (⟨[(4, 1), (3, 1), (2, 1)]⟩ : GoMap).lookup 4 = some 1 := by
  decide

/-! ## One call at a time -/

theorem index_store (m : GoMap) (k v x : Int) :
    (m.store k v).index x = if x = k then v else m.index x := by
  unfold GoMap.index
  rw [lookup_store]
  split <;> rfl

theorem root_iff_rootOf_self {m : GoMap} {r : Int} : m.lookup r = none ↔ RootOf m r r :=
  ⟨RootOf.self, fun h => h.is_root⟩

/-- The method `Join` is two calls of `Find` followed by the attachment. -/
theorem Join_unfold {u : Union} {p q pr qr : Int}
    (hp : RootOf u.parent p pr) (hq : RootOf u.parent q qr) :
    ∃ u1 u2, Find u p = some (pr, u1) ∧ Find u1 q = some (qr, u2) ∧
      Join u p q = some (if pr = qr then u2 else attach u2 pr qr) := by
  obtain ⟨u1, hF1, -, hroots1, -⟩ := Find_spec hp
  obtain ⟨u2, hF2, -⟩ := Find_spec ((hroots1 q qr).mpr hq)
  refine ⟨u1, u2, hF1, hF2, ?_⟩
  simp only [Join, hF1, hF2, attach]
  split <;> rfl

/-- A call of `Find` that returns keeps every root. -/
theorem Find_roots {u u1 : Union} {p r : Int} (h : Find u p = some (r, u1)) :
    u1.rank = u.rank ∧ (∀ x s, RootOf u1.parent x s ↔ RootOf u.parent x s) ∧
      (∀ x, u.parent.lookup x = none → u1.parent.lookup x = none) := by
  obtain ⟨u2, hF, hrank, hroots, -, -, habs⟩ := Find_spec (Find_some h)
  rw [h] at hF
  simp only [Option.some.injEq, Prod.mk.injEq, true_and] at hF
  subst hF
  exact ⟨hrank, hroots, habs⟩

/-- A property kept by `Find` and by the attachment of two distinct roots is kept by every
call on a state without a cycle, and the call returns. -/
theorem apply_preserves (P : Union → Prop)
    (hF : ∀ u p r u1, Acyclic u.parent → P u → Find u p = some (r, u1) → P u1)
    (hA : ∀ u pr qr, Acyclic u.parent → P u → u.parent.lookup pr = none →
      u.parent.lookup qr = none → pr ≠ qr → P (attach u pr qr))
    (u : Union) (op : Op) (hac : Acyclic u.parent) (hP : P u) :
    ∃ u2, op.apply u = some u2 ∧ P u2 := by
  cases op with
  | find p =>
    obtain ⟨r, hr⟩ := hac p
    obtain ⟨u1, hF1, -⟩ := Find_spec hr
    exact ⟨u1, by simp [Op.apply, hF1], hF u p r u1 hac hP hF1⟩
  | join p q =>
    obtain ⟨pr, hp⟩ := hac p
    obtain ⟨qr, hq⟩ := hac q
    obtain ⟨u1, u2, hF1, hF2, hJ⟩ := Join_unfold hp hq
    obtain ⟨-, hroots1, -⟩ := Find_roots hF1
    obtain ⟨-, hroots2, -⟩ := Find_roots hF2
    have hac1 : Acyclic u1.parent := acyclic_of_roots hroots1 hac
    have hac2 : Acyclic u2.parent := acyclic_of_roots hroots2 hac1
    have hP1 : P u1 := hF u p pr u1 hac hP hF1
    have hP2 : P u2 := hF u1 q qr u2 hac1 hP1 hF2
    refine ⟨_, hJ, ?_⟩
    split
    · exact hP2
    · rename_i hne
      have hpr : u2.parent.lookup pr = none :=
        ((hroots2 p pr).mpr ((hroots1 p pr).mpr hp)).is_root
      have hqr : u2.parent.lookup qr = none :=
        ((hroots2 q qr).mpr ((hroots1 q qr).mpr hq)).is_root
      exact hA u2 pr qr hac2 hP2 hpr hqr hne
  | connected p q =>
    obtain ⟨pr, hp⟩ := hac p
    obtain ⟨qr, hq⟩ := hac q
    obtain ⟨u1, hF1, -, hroots1, -⟩ := Find_spec hp
    obtain ⟨u2, hF2, -⟩ := Find_spec ((hroots1 q qr).mpr hq)
    have hac1 : Acyclic u1.parent := acyclic_of_roots hroots1 hac
    have hP1 : P u1 := hF u p pr u1 hac hP hF1
    have hP2 : P u2 := hF u1 q qr u2 hac1 hP1 hF2
    exact ⟨u2, by simp [Op.apply, Connected, hF1, hF2], hP2⟩

/-- The attachment of two distinct roots maps every root as `link_roots` says. -/
theorem attach_roots {u : Union} {pr qr : Int} (hpr : u.parent.lookup pr = none)
    (hqr : u.parent.lookup qr = none) (hne : pr ≠ qr) :
    ∃ t, (t = pr ∨ t = qr) ∧
      (t = if u.rank.index pr < u.rank.index qr then qr else pr) ∧
      ∀ x s, RootOf u.parent x s →
        RootOf (attach u pr qr).parent x (if s = pr ∨ s = qr then t else s) := by
  by_cases hlt : u.rank.index pr < u.rank.index qr
  · refine ⟨qr, Or.inr rfl, by simp [hlt], ?_⟩
    intro x s h
    simp only [attach, hlt, if_true]
    exact link_roots hpr hqr hne h
  · refine ⟨pr, Or.inl rfl, by simp [hlt], ?_⟩
    intro x s h
    simp only [attach, hlt, if_false]
    have := link_roots hqr hpr (Ne.symm hne) h
    simpa only [or_comm] using this

theorem attach_acyclic {u : Union} {pr qr : Int} (hac : Acyclic u.parent)
    (hpr : u.parent.lookup pr = none) (hqr : u.parent.lookup qr = none) (hne : pr ≠ qr) :
    Acyclic (attach u pr qr).parent := by
  obtain ⟨t, -, -, hmap⟩ := attach_roots hpr hqr hne
  intro a
  obtain ⟨s, hs⟩ := hac a
  exact ⟨_, hmap a s hs⟩

/-- Every call on a state without a cycle returns and leaves a state without a cycle. -/
theorem apply_acyclic (u : Union) (op : Op) (hac : Acyclic u.parent) :
    ∃ u2, op.apply u = some u2 ∧ Acyclic u2.parent :=
  apply_preserves (fun v => Acyclic v.parent)
    (fun _ _ _ _ h _ hF => acyclic_of_roots (Find_roots hF).2.1 h)
    (fun _ _ _ h _ hpr hqr hne => attach_acyclic h hpr hqr hne) u op hac hac

/-- A property of `New()` kept by every call holds in every reachable state. -/
theorem run_preserves (P : Union → Prop)
    (hstep : ∀ (u : Union) (op : Op), Acyclic u.parent → P u →
      ∃ u2, op.apply u = some u2 ∧ P u2) :
    ∀ (ops : List Op) (u : Union), Acyclic u.parent → P u →
      ∃ u2, run u ops = some u2 ∧ P u2 ∧ Acyclic u2.parent := by
  intro ops
  induction ops with
  | nil =>
    intro u hac hP
    exact ⟨u, rfl, hP, hac⟩
  | cons op ops ih =>
    intro u hac hP
    obtain ⟨u1, h1, hP1⟩ := hstep u op hac hP
    obtain ⟨v, hv, hacv⟩ := apply_acyclic u op hac
    rw [h1] at hv
    cases hv
    obtain ⟨u2, h2, hP2, hac2⟩ := ih u1 hacv hP1
    exact ⟨u2, by simp only [union.run, h1, h2], hP2, hac2⟩

/-! ## The number of distinct roots -/

/-- When every root is mapped by one function, the number of distinct roots does not grow. -/
theorem rootCount_of_map {u u2 : Union} (g : Int → Int) (hac : Acyclic u.parent)
    (hmap : ∀ x s, RootOf u.parent x s → RootOf u2.parent x (g s)) (S : Finset Int) :
    rootCount u2 S ≤ rootCount u S := by
  have hval : ∀ a, rootOf u2 a = Option.map g (rootOf u a) := by
    intro a
    obtain ⟨s, hs⟩ := hac a
    rw [rootOf_eq hs, rootOf_eq (hmap a s hs)]
    rfl
  have himg : S.image (rootOf u2) = (S.image (rootOf u)).image (Option.map g) := by
    rw [Finset.image_image]
    exact Finset.image_congr fun a _ => hval a
  unfold rootCount
  rw [himg]
  exact Finset.card_image_le

theorem apply_rootCount (u : Union) (op : Op) (hac : Acyclic u.parent) :
    ∃ u2, op.apply u = some u2 ∧ ∀ S, rootCount u2 S ≤ rootCount u S := by
  cases op with
  | find p =>
    obtain ⟨r, hr⟩ := hac p
    obtain ⟨u1, hF1, -, hroots, -⟩ := Find_spec hr
    exact ⟨u1, by simp [Op.apply, hF1],
      rootCount_of_map id hac fun x s h => (hroots x s).mpr h⟩
  | join p q =>
    obtain ⟨pr, hp⟩ := hac p
    obtain ⟨qr, hq⟩ := hac q
    obtain ⟨u2, t, hJ, -, hmap, -⟩ := Join_spec hp hq
    exact ⟨u2, hJ, rootCount_of_map (fun s => if s = pr ∨ s = qr then t else s) hac hmap⟩
  | connected p q =>
    obtain ⟨pr, hp⟩ := hac p
    obtain ⟨qr, hq⟩ := hac q
    obtain ⟨u2, hC, -, hroots⟩ := Connected_spec hp hq
    exact ⟨u2, by simp [Op.apply, hC],
      rootCount_of_map id hac fun x s h => (hroots x s).mpr h⟩

theorem run_rootCount :
    ∀ (ops : List Op) (u : Union), Acyclic u.parent →
      ∃ u2, run u ops = some u2 ∧ ∀ S, rootCount u2 S ≤ rootCount u S := by
  intro ops
  induction ops with
  | nil =>
    intro u _
    exact ⟨u, rfl, fun S => le_refl _⟩
  | cons op ops ih =>
    intro u hac
    obtain ⟨u1, h1, hle1⟩ := apply_rootCount u op hac
    obtain ⟨v, hv, hacv⟩ := apply_acyclic u op hac
    rw [h1] at hv
    cases hv
    obtain ⟨u2, h2, hle2⟩ := ih u1 hacv
    exact ⟨u2, by simp only [union.run, h1, h2], fun S => le_trans (hle2 S) (hle1 S)⟩

/-- C11: in every state reachable from `New()` and for every finite set `S` of integers,
the number of distinct roots `Find(a)` over `a` in `S` after `Join(p, q)` is at most that
number before the call, and the same holds across every sequence of `Join` calls. -/
theorem root_count_never_grows (ops : List Op) (S : Finset Int) (p q : Int)
    (joins : List (Int × Int)) :
    ∃ u, run New ops = some u ∧
      (∃ u2, Join u p q = some u2 ∧ rootCount u2 S ≤ rootCount u S) ∧
      (∃ u3, run u (joinOps joins) = some u3 ∧ rootCount u3 S ≤ rootCount u S) := by
  obtain ⟨u, hrun, hrep⟩ := run_New ops
  obtain ⟨u2, hJ, hle⟩ := apply_rootCount u (Op.join p q) hrep.1
  obtain ⟨u3, hrun3, hle3⟩ := run_rootCount (joinOps joins) u hrep.1
  exact ⟨u, hrun, ⟨u2, hJ, hle S⟩, ⟨u3, hrun3, hle3 S⟩⟩

/-! ## No cycle -/

/-- Walking parent steps from an element with a chain of `n` steps to the root leaves a
chain that is no longer. -/
theorem chain_of_reach {m : GoMap} {a b r : Int} {n : Nat} (h : Chain m a n r)
    (hab : Relation.ReflTransGen (ParentStep m) a b) : ∃ k, k ≤ n ∧ Chain m b k r := by
  induction hab with
  | refl => exact ⟨n, le_refl _, h⟩
  | tail _ hs ih =>
    obtain ⟨k, hk, c⟩ := ih
    cases c with
    | root h0 =>
      unfold ParentStep at hs
      rw [h0] at hs
      cases hs
    | @step _ b2 _ k0 hs2 hc2 =>
      unfold ParentStep at hs
      rw [hs2] at hs
      cases hs
      exact ⟨k0, by omega, hc2⟩

/-- In a table without a cycle no element is its own proper ancestor. -/
theorem no_self_ancestor {m : GoMap} (hac : Acyclic m) (a : Int) :
    ¬ Relation.TransGen (ParentStep m) a a := by
  intro h
  obtain ⟨b, hab, hba⟩ := Relation.TransGen.head'_iff.mp h
  obtain ⟨r, n, c⟩ := hac a
  cases c with
  | root h0 =>
    unfold ParentStep at hab
    rw [h0] at hab
    cases hab
  | @step _ b2 _ n0 hs hc =>
    unfold ParentStep at hab
    rw [hs] at hab
    cases hab
    obtain ⟨k, hk, c2⟩ := chain_of_reach hc hba
    have := (Chain.step hs hc).unique c2
    omega

/-- C12: the state `New()` has no cycle, and every call of Find, Join or Connected on a state
without a cycle returns and leaves a state without a cycle: every parent chain ends at an
element without a parent entry, and no element is its own proper ancestor. -/
theorem acyclic_invariant (u : Union) (op : Op) (h : Acyclic u.parent) :
    Acyclic New.parent ∧
      ∃ u2, op.apply u = some u2 ∧ Acyclic u2.parent ∧
        (∀ a, ∃ n r, Chain u2.parent a n r ∧ u2.parent.lookup r = none) ∧
        (∀ a, ¬ Relation.TransGen (ParentStep u2.parent) a a) := by
  obtain ⟨u2, happ, hac2⟩ := apply_acyclic u op h
  refine ⟨acyclic_empty, u2, happ, hac2, ?_, fun a => no_self_ancestor hac2 a⟩
  intro a
  obtain ⟨r, n, c⟩ := hac2 a
  exact ⟨n, r, c, c.end_root⟩

theorem acyclic_invariant_witness :
    Acyclic (⟨⟨[(3, 1), (4, 3), (2, 1)]⟩, ⟨[(1, 2), (3, 1)]⟩⟩ : Union).parent ∧
      (Acyclic New.parent ∧
        ∃ u2, (Op.join 4 2).apply ⟨⟨[(3, 1), (4, 3), (2, 1)]⟩, ⟨[(1, 2), (3, 1)]⟩⟩ = some u2 ∧
          Acyclic u2.parent ∧
          (∀ a, ∃ n r, Chain u2.parent a n r ∧ u2.parent.lookup r = none) ∧
          (∀ a, ¬ Relation.TransGen (ParentStep u2.parent) a a)) := by
  have hac : Acyclic (⟨⟨[(3, 1), (4, 3), (2, 1)]⟩, ⟨[(1, 2), (3, 1)]⟩⟩ : Union).parent := by
    obtain ⟨u, hrun, hrep⟩ := run_New [Op.join 1 2, Op.join 3 4, Op.join 1 3]
    have hu : run New [Op.join 1 2, Op.join 3 4, Op.join 1 3] =
        some ⟨⟨[(3, 1), (4, 3), (2, 1)]⟩, ⟨[(1, 2), (3, 1)]⟩⟩ := by decide
    rw [hu] at hrun
    cases hrun
    exact hrep.1
  exact ⟨hac, acyclic_invariant _ (Op.join 4 2) hac⟩

/-! ## Totality -/

/-- On a chain that ends at `root` the second loop of `Find` never reads a missing key:
the loop with the checked read gives the same result. -/
theorem compressChecked_eq (root : Int) :
    ∀ (fuel n : Nat) (m : GoMap) (p : Int), Chain m p n root →
      compressChecked root fuel m p = compress root fuel m p := by
  intro fuel
  induction fuel with
  | zero => intro n m p _; rfl
  | succ f ih =>
    intro n m p hc
    by_cases hp : p = root
    · simp [compressChecked, compress, hp]
    · cases hc with
      | root _ => exact absurd rfl hp
      | @step _ b _ n0 hs hc0 =>
        have hidx : m.index p = b := by simp [GoMap.index, hs]
        have hroot : RootOf m p root := ⟨n0 + 1, Chain.step hs hc0⟩
        obtain ⟨k, _, c⟩ := chain_store_fwd hroot hp hc0
        simp only [compressChecked, compress, ne_eq, hp, not_false_eq_true, if_true, hs, hidx]
        exact ih k _ _ c

/-- Both loops of `Find` end within the budget on an element whose parent chain ends, and
the second loop reads present keys only. -/
theorem Find_total {u : Union} {p r : Int} (h : RootOf u.parent p r) :
    ∃ m2, findRoot u.parent (u.parent.len + 1) p = some r ∧
      compress r (u.parent.len + 1) u.parent p = some m2 ∧
      compressChecked r (u.parent.len + 1) u.parent p = some m2 ∧
      Find u p = some (r, ⟨m2, u.rank⟩) := by
  obtain ⟨n, c⟩ := h
  have hn : n < u.parent.len + 1 := by have := chain_le_len c; omega
  obtain ⟨m2, hm2, -⟩ := compress_spec r _ n u.parent p c hn
  refine ⟨m2, findRoot_budget ⟨n, c⟩, hm2, ?_, ?_⟩
  · rw [compressChecked_eq r _ n u.parent p c]
    exact hm2
  · simp only [Find, findRoot_budget ⟨n, c⟩, hm2]

/-- C13: in every state reachable from `New()` and for all integers `p` and `q`, the calls
`Find(p)`, `Join(p, q)` and `Connected(p, q)` return: both loops of every `Find` end within
the step budget, and the compression loop reads `parent[p]` at present keys only (the loop
with the checked read gives the same table). -/
theorem calls_total (ops : List Op) (p q : Int) :
    ∃ u, run New ops = some u ∧
      (∃ r m2, findRoot u.parent (u.parent.len + 1) p = some r ∧
        compress r (u.parent.len + 1) u.parent p = some m2 ∧
        compressChecked r (u.parent.len + 1) u.parent p = some m2 ∧
        Find u p = some (r, ⟨m2, u.rank⟩) ∧
        ∃ s m3, findRoot m2 (m2.len + 1) q = some s ∧
          compress s (m2.len + 1) m2 q = some m3 ∧
          compressChecked s (m2.len + 1) m2 q = some m3 ∧
          Find ⟨m2, u.rank⟩ q = some (s, ⟨m3, u.rank⟩)) ∧
      (∃ u2, Join u p q = some u2) ∧
      (∃ res u2, Connected u p q = some (res, u2)) := by
  obtain ⟨u, hrun, hrep⟩ := run_New ops
  obtain ⟨pr, hp⟩ := hrep.1 p
  obtain ⟨qr, hq⟩ := hrep.1 q
  obtain ⟨m2, h1, h2, h3, hF⟩ := Find_total hp
  obtain ⟨-, hroots, -⟩ := Find_roots hF
  have hq1 : RootOf (⟨m2, u.rank⟩ : Union).parent q qr := (hroots q qr).mpr hq
  obtain ⟨m3, g1, g2, g3, hG⟩ := Find_total hq1
  obtain ⟨u2, t, hJ, -⟩ := Join_spec hp hq
  obtain ⟨u3, hC, -⟩ := Connected_spec hp hq
  exact ⟨u, hrun, ⟨pr, m2, h1, h2, h3, hF, qr, m3, g1, g2, g3, hG⟩, ⟨u2, hJ⟩, ⟨_, u3, hC⟩⟩

/-- C14: from `New()`, after `Join(1,2)`, `Join(3,4)`, `Join(2,3)` the call `Connected(1,4)`
returns true, `Connected(1,5)` returns false and `Find(5)` returns 5, when the three calls
are made one after the other and also when each is made on the state after the joins. -/
theorem concrete_scenario :
    ∃ u u1 u2 u3, run New [Op.join 1 2, Op.join 3 4, Op.join 2 3] = some u ∧
      Connected u 1 4 = some (true, u1) ∧
      Connected u1 1 5 = some (false, u2) ∧
      Find u2 5 = some (5, u3) ∧
      (Connected u 1 5).map Prod.fst = some false ∧
      (Find u 5).map Prod.fst = some 5 :=
  ⟨⟨⟨[(3, 1), (2, 1), (4, 3)]⟩, ⟨[(1, 2), (3, 1)]⟩⟩,
    ⟨⟨[(3, 1), (4, 1), (2, 1)]⟩, ⟨[(1, 2), (3, 1)]⟩⟩,
    ⟨⟨[(3, 1), (4, 1), (2, 1)]⟩, ⟨[(1, 2), (3, 1)]⟩⟩,
    ⟨⟨[(3, 1), (4, 1), (2, 1)]⟩, ⟨[(1, 2), (3, 1)]⟩⟩, by decide⟩

/-- C15: from `New()`, after `Join(1,2)` the root of 1 and 2 has rank 1; after `Join(3,4)`
the root of 3 and 4 has rank 1; at `Join(1,3)` the two roots 1 and 3 both have rank 1, and
after it one of them, `r`, is the root of 1, 2, 3 and 4 with rank 2, and `Connected(x, y)`
returns true for all `x`, `y` among 1, 2, 3, 4. -/
theorem rank_tie_scenario :
    ∃ u1 u2 u3 r, run New [Op.join 1 2] = some u1 ∧
      rootOf u1 1 = some 1 ∧ rootOf u1 2 = some 1 ∧ u1.rank.index 1 = 1 ∧
      Join u1 3 4 = some u2 ∧
      rootOf u2 3 = some 3 ∧ rootOf u2 4 = some 3 ∧ u2.rank.index 3 = 1 ∧
      rootOf u2 1 = some 1 ∧ u2.rank.index 1 = 1 ∧
      Join u2 1 3 = some u3 ∧
      (r = 1 ∨ r = 3) ∧ (∀ x ∈ [1, 2, 3, 4], rootOf u3 x = some r) ∧ u3.rank.index r = 2 ∧
      (∀ x ∈ [1, 2, 3, 4], ∀ y ∈ [1, 2, 3, 4], (Connected u3 x y).map Prod.fst = some true) :=
  ⟨⟨⟨[(2, 1)]⟩, ⟨[(1, 1)]⟩⟩,
    ⟨⟨[(4, 3), (2, 1)]⟩, ⟨[(3, 1), (1, 1)]⟩⟩,
    ⟨⟨[(3, 1), (4, 3), (2, 1)]⟩, ⟨[(1, 2), (3, 1)]⟩⟩, 1, by decide⟩

/-! ## The exact effect of path compression -/

theorem reach_of_root {m : GoMap} {a x : Int} (ha : m.lookup a = none)
    (h : Relation.ReflTransGen (ParentStep m) a x) : x = a := by
  rcases h.cases_head with h1 | ⟨c, hs, _⟩
  · exact h1.symm
  · unfold ParentStep at hs
    rw [ha] at hs
    cases hs

/-- An element with a parent entry is not met again further up its chain. -/
theorem not_reach_back {m : GoMap} {p b r : Int} {n : Nat} (hs : m.lookup p = some b)
    (hc : Chain m b n r) : ¬ Relation.ReflTransGen (ParentStep m) b p := by
  intro h
  obtain ⟨k, hk, c⟩ := chain_of_reach hc h
  have := (Chain.step hs hc).unique c
  omega

/-- The table after the second loop of `Find`, entry by entry: the elements on the chain of
`p` in the table `m0` the loop started from point at the root, all other entries are kept. -/
theorem compress_exact (m0 : GoMap) (root : Int) :
    ∀ (fuel n : Nat) (m : GoMap) (p : Int) (m2 : GoMap), Chain m0 p n root →
      (∀ y, Relation.ReflTransGen (ParentStep m0) p y → m.lookup y = m0.lookup y) →
      compress root fuel m p = some m2 →
      ∀ x, (Relation.ReflTransGen (ParentStep m0) p x → x ≠ root → m2.lookup x = some root) ∧
        (¬ Relation.ReflTransGen (ParentStep m0) p x ∨ x = root → m2.lookup x = m.lookup x) := by
  intro fuel
  induction fuel with
  | zero => intro n m p m2 _ _ h; simp [compress] at h
  | succ f ih =>
    intro n m p m2 hc hagree h x
    by_cases hp : p = root
    · simp only [compress, hp, ne_eq, not_true_eq_false, if_false] at h
      cases h
      refine ⟨fun hreach hx => ?_, fun _ => rfl⟩
      rw [hp] at hreach
      exact absurd (reach_of_root hc.end_root hreach) hx
    · simp only [compress, ne_eq, hp, not_false_eq_true, if_true] at h
      cases hc with
      | root _ => exact absurd rfl hp
      | @step _ b _ n0 hs hc0 =>
        have hmp : m.lookup p = some b := by
          rw [hagree p Relation.ReflTransGen.refl]
          exact hs
        have hidx : m.index p = b := by simp [GoMap.index, hmp]
        rw [hidx] at h
        have hnotp : ∀ y, Relation.ReflTransGen (ParentStep m0) b y → y ≠ p := by
          rintro y hy rfl
          exact not_reach_back hs hc0 hy
        have hagree2 : ∀ y, Relation.ReflTransGen (ParentStep m0) b y →
            (m.store p root).lookup y = m0.lookup y := by
          intro y hy
          rw [lookup_store_other _ _ _ _ (hnotp y hy)]
          exact hagree y (Relation.ReflTransGen.head hs hy)
        obtain ⟨ih1, ih2⟩ := ih n0 (m.store p root) b m2 hc0 hagree2 h x
        constructor
        · intro hreach hx
          rcases hreach.cases_head with h1 | ⟨c, hsc, hcx⟩
          · have hxb : ¬ Relation.ReflTransGen (ParentStep m0) b x := by
              rw [← h1]
              exact not_reach_back hs hc0
            rw [ih2 (Or.inl hxb), ← h1]
            exact lookup_store_same _ _ _
          · unfold ParentStep at hsc
            rw [hs] at hsc
            cases hsc
            exact ih1 hcx hx
        · intro hx
          have hxp : x ≠ p := by
            rintro rfl
            rcases hx with hx | hx
            · exact hx Relation.ReflTransGen.refl
            · exact hp hx
          have hx2 : ¬ Relation.ReflTransGen (ParentStep m0) b x ∨ x = root := by
            rcases hx with hx | hx
            · exact Or.inl fun hb => hx (Relation.ReflTransGen.head hs hb)
            · exact Or.inr hx
          rw [ih2 hx2]
          exact lookup_store_other _ _ _ _ hxp

/-- The parent table after `Find(p)`, entry by entry. -/
theorem Find_exact {u u2 : Union} {p r : Int} (h : Find u p = some (r, u2)) (x : Int) :
    (Relation.ReflTransGen (ParentStep u.parent) p x → x ≠ r → u2.parent.lookup x = some r) ∧
      (¬ Relation.ReflTransGen (ParentStep u.parent) p x ∨ x = r →
        u2.parent.lookup x = u.parent.lookup x) := by
  obtain ⟨n, c⟩ := Find_some h
  obtain ⟨m2, -, hm2, -, hF⟩ := Find_total ⟨n, c⟩
  rw [h] at hF
  simp only [Option.some.injEq, Prod.mk.injEq, true_and] at hF
  subst hF
  exact compress_exact u.parent r _ n u.parent p m2 c (fun _ _ => rfl) hm2 x

/-- C16: in every state reachable from `New()`, when `Find(p)` returns `r`, afterwards every
element other than `r` on the parent chain from `p` before the call has the parent entry
`r`, the parent entry of every element not on that chain is unchanged, `r` has no parent
entry and the rank map is unchanged. -/
theorem find_compresses_path (ops : List Op) (p : Int) :
    ∃ u r u2, run New ops = some u ∧ Find u p = some (r, u2) ∧
      (∀ x, Relation.ReflTransGen (ParentStep u.parent) p x → x ≠ r →
        u2.parent.lookup x = some r) ∧
      (∀ x, ¬ Relation.ReflTransGen (ParentStep u.parent) p x →
        u2.parent.lookup x = u.parent.lookup x) ∧
      u.parent.lookup r = none ∧ u2.parent.lookup r = none ∧ u2.rank = u.rank := by
  obtain ⟨u, hrun, hrep⟩ := run_New ops
  obtain ⟨r, hr⟩ := hrep.1 p
  obtain ⟨u2, hF, hrank, -, -, -, habs⟩ := Find_spec hr
  exact ⟨u, r, u2, hrun, hF, fun x hx hne => (Find_exact hF x).1 hx hne,
    fun x hx => (Find_exact hF x).2 (Or.inl hx), hr.is_root, habs r hr.is_root, hrank⟩

/-! ## Union by rank -/

theorem rootOf_some {u : Union} {a r : Int} (h : rootOf u a = some r) : RootOf u.parent a r := by
  unfold rootOf at h
  cases hF : Find u a with
  | none => simp [hF] at h
  | some res =>
    obtain ⟨r2, u2⟩ := res
    simp only [hF, Option.map_some', Option.some.injEq] at h
    subst h
    exact Find_some hF

/-- C17: in every state, and so in every state reachable from `New()`, in which `Find(p)`
and `Find(q)` return distinct roots `pr` and `qr`, `Join(p, q)` writes one parent entry on top of the two calls of
`Find`: when `rank(pr) < rank(qr)` it is `parent[pr] = qr` and `qr` stays a root, otherwise
it is `parent[qr] = pr` and `pr` stays a root; every other parent entry is the one the two
calls of `Find` left, and the root that stays is the root of `p` and of `q` afterwards. -/
theorem join_attaches_by_rank (p q : Int) (u : Union) (pr qr : Int)
    (hp : rootOf u p = some pr) (hq : rootOf u q = some qr) (hne : pr ≠ qr) :
    ∃ u1 u2 u3, Find u p = some (pr, u1) ∧ Find u1 q = some (qr, u2) ∧
      Join u p q = some u3 ∧
      u2.parent.lookup pr = none ∧ u2.parent.lookup qr = none ∧
      (u.rank.index pr < u.rank.index qr →
        u3.parent.lookup pr = some qr ∧ u3.parent.lookup qr = none ∧
        (∀ x, x ≠ pr → u3.parent.lookup x = u2.parent.lookup x) ∧
        rootOf u3 p = some qr ∧ rootOf u3 q = some qr) ∧
      (¬ u.rank.index pr < u.rank.index qr →
        u3.parent.lookup qr = some pr ∧ u3.parent.lookup pr = none ∧
        (∀ x, x ≠ qr → u3.parent.lookup x = u2.parent.lookup x) ∧
        rootOf u3 p = some pr ∧ rootOf u3 q = some pr) := by
  have hp0 := rootOf_some hp
  have hq0 := rootOf_some hq
  obtain ⟨u1, u2, hF1, hF2, hJ⟩ := Join_unfold hp0 hq0
  obtain ⟨hrank1, hroots1, -⟩ := Find_roots hF1
  obtain ⟨hrank2, hroots2, -⟩ := Find_roots hF2
  have hp2 : RootOf u2.parent p pr := (hroots2 p pr).mpr ((hroots1 p pr).mpr hp0)
  have hq2 : RootOf u2.parent q qr := (hroots2 q qr).mpr ((hroots1 q qr).mpr hq0)
  have hrk : u2.rank = u.rank := by rw [hrank2, hrank1]
  simp only [hne, if_false] at hJ
  obtain ⟨t, -, ht, hmap⟩ := attach_roots hp2.is_root hq2.is_root hne
  have hpt := rootOf_eq (hmap p pr hp2)
  have hqt := rootOf_eq (hmap q qr hq2)
  simp only [true_or, or_true, if_true] at hpt hqt
  rw [hrk] at ht
  refine ⟨u1, u2, _, hF1, hF2, hJ, hp2.is_root, hq2.is_root, ?_, ?_⟩
  · intro hlt
    have hlt2 : u2.rank.index pr < u2.rank.index qr := by rw [hrk]; exact hlt
    simp only [hlt, if_true] at ht
    subst ht
    refine ⟨?_, ?_, ?_, hpt, hqt⟩
    · simp only [attach, hlt2, if_true]
      exact lookup_store_same _ _ _
    · simp only [attach, hlt2, if_true]
      rw [lookup_store_other _ _ _ _ (Ne.symm hne)]
      exact hq2.is_root
    · intro x hx
      simp only [attach, hlt2, if_true]
      exact lookup_store_other _ _ _ _ hx
  · intro hlt
    have hlt2 : ¬ u2.rank.index pr < u2.rank.index qr := by rw [hrk]; exact hlt
    simp only [hlt, if_false] at ht
    subst ht
    refine ⟨?_, ?_, ?_, hpt, hqt⟩
    · simp only [attach, hlt2, if_false]
      exact lookup_store_same _ _ _
    · simp only [attach, hlt2, if_false]
      rw [lookup_store_other _ _ _ _ hne]
      exact hp2.is_root
    · intro x hx
      simp only [attach, hlt2, if_false]
      exact lookup_store_other _ _ _ _ hx

theorem join_attaches_by_rank_witness :
    run New [Op.join 1 2] = some ⟨⟨[(2, 1)]⟩, ⟨[(1, 1)]⟩⟩ ∧
      rootOf ⟨⟨[(2, 1)]⟩, ⟨[(1, 1)]⟩⟩ 5 = some 5 ∧
      rootOf ⟨⟨[(2, 1)]⟩, ⟨[(1, 1)]⟩⟩ 2 = some 1 ∧
      (⟨[(1, 1)]⟩ : GoMap).index 5 < (⟨[(1, 1)]⟩ : GoMap).index 1 ∧
      ∃ u3, Join ⟨⟨[(2, 1)]⟩, ⟨[(1, 1)]⟩⟩ 5 2 = some u3 ∧
        u3.parent.lookup 5 = some 1 ∧ u3.parent.lookup 1 = none ∧
        rootOf u3 5 = some 1 ∧ rootOf u3 2 = some 1 := by
  refine ⟨by decide, by decide, by decide, by decide, ?_⟩
  obtain ⟨u1, u2, u3, -, -, hJ, -, -, hlt, -⟩ :=
    join_attaches_by_rank 5 2 ⟨⟨[(2, 1)]⟩, ⟨[(1, 1)]⟩⟩ 5 1 (by decide) (by decide) (by decide)
  obtain ⟨h1, h2, -, h3, h4⟩ := hlt (by decide)
  exact ⟨u3, hJ, h1, h2, h3, h4⟩

/-! ## The evolution of the rank -/

/-- What `Join(p, q)` does to the rank map. -/
theorem Join_rank {u : Union} {p q pr qr : Int}
    (hp : RootOf u.parent p pr) (hq : RootOf u.parent q qr) :
    ∃ u2, Join u p q = some u2 ∧
      (pr = qr ∨ u.rank.index pr ≠ u.rank.index qr → u2.rank = u.rank) ∧
      (pr ≠ qr ∧ u.rank.index pr = u.rank.index qr →
        u2.rank = u.rank.store pr (u.rank.index pr + 1) ∧
        rootOf u2 p = some pr ∧ rootOf u2 q = some pr) := by
  obtain ⟨u1, u2, hF1, hF2, hJ⟩ := Join_unfold hp hq
  obtain ⟨hrank1, hroots1, -⟩ := Find_roots hF1
  obtain ⟨hrank2, hroots2, -⟩ := Find_roots hF2
  have hp2 : RootOf u2.parent p pr := (hroots2 p pr).mpr ((hroots1 p pr).mpr hp)
  have hq2 : RootOf u2.parent q qr := (hroots2 q qr).mpr ((hroots1 q qr).mpr hq)
  have hrk : u2.rank = u.rank := by rw [hrank2, hrank1]
  refine ⟨_, hJ, ?_, ?_⟩
  · rintro (he | hr)
    · simp only [he, if_true]
      exact hrk
    · by_cases he : pr = qr
      · simp only [he, if_true]
        exact hrk
      · simp only [he, if_false, attach, hrk, hr]
  · rintro ⟨hne, hr⟩
    simp only [hne, if_false]
    obtain ⟨t, -, ht, hmap⟩ := attach_roots hp2.is_root hq2.is_root hne
    have hpt := rootOf_eq (hmap p pr hp2)
    have hqt := rootOf_eq (hmap q qr hq2)
    simp only [true_or, or_true, if_true] at hpt hqt
    rw [hrk] at ht
    simp only [hr, lt_self_iff_false, if_false] at ht
    subst ht
    refine ⟨?_, hpt, hqt⟩
    simp only [attach, hrk, hr, if_true]

/-- C18: in every state reachable from `New()`, no call lowers the rank of any element.
`Find` and `Connected` leave the rank map unchanged, and so does `Join(p, q)` when the roots
`pr`, `qr` of `p`, `q` are equal or have different ranks; when the roots are distinct and of
equal rank, `pr` is the root of the merged group, its rank grows by exactly 1 and the rank
of every other element is unchanged. -/
theorem rank_evolution (ops : List Op) (op : Op) (p q x : Int) :
    ∃ u, run New ops = some u ∧
      (∃ u2, op.apply u = some u2 ∧ u.rank.index x ≤ u2.rank.index x) ∧
      (∃ r u2, Find u p = some (r, u2) ∧ u2.rank = u.rank) ∧
      (∃ res u2, Connected u p q = some (res, u2) ∧ u2.rank = u.rank) ∧
      (∃ pr qr u2, rootOf u p = some pr ∧ rootOf u q = some qr ∧ Join u p q = some u2 ∧
        (pr = qr ∨ u.rank.index pr ≠ u.rank.index qr → u2.rank = u.rank) ∧
        (pr ≠ qr ∧ u.rank.index pr = u.rank.index qr →
          rootOf u2 p = some pr ∧ rootOf u2 q = some pr ∧
          u2.rank.index pr = u.rank.index pr + 1 ∧
          (x ≠ pr → u2.rank.lookup x = u.rank.lookup x))) := by
  obtain ⟨u, hrun, hrep⟩ := run_New ops
  have hfind : ∀ a, ∃ r u2, Find u a = some (r, u2) ∧ u2.rank = u.rank := by
    intro a
    obtain ⟨r, hr⟩ := hrep.1 a
    obtain ⟨u2, hF, hrank, -⟩ := Find_spec hr
    exact ⟨r, u2, hF, hrank⟩
  have hconn : ∀ a b, ∃ res u2, Connected u a b = some (res, u2) ∧ u2.rank = u.rank := by
    intro a b
    obtain ⟨ra, ha⟩ := hrep.1 a
    obtain ⟨rb, hb⟩ := hrep.1 b
    obtain ⟨u2, hC, hrank, -⟩ := Connected_spec ha hb
    exact ⟨_, u2, hC, hrank⟩
  have hjoin : ∀ a b y, ∃ u2, Join u a b = some u2 ∧ u.rank.index y ≤ u2.rank.index y := by
    intro a b y
    obtain ⟨ra, ha⟩ := hrep.1 a
    obtain ⟨rb, hb⟩ := hrep.1 b
    obtain ⟨u2, hJ, hsame, hinc⟩ := Join_rank ha hb
    refine ⟨u2, hJ, ?_⟩
    by_cases hc : ra ≠ rb ∧ u.rank.index ra = u.rank.index rb
    · rw [(hinc hc).1, index_store]
      split
      · rename_i hy
        rw [hy]
        omega
      · exact le_refl _
    · have : ra = rb ∨ u.rank.index ra ≠ u.rank.index rb := by
        by_cases he : ra = rb
        · exact Or.inl he
        · exact Or.inr fun h => hc ⟨he, h⟩
      rw [hsame this]
  refine ⟨u, hrun, ?_, hfind p, hconn p q, ?_⟩
  · cases op with
    | find a =>
      obtain ⟨r, u2, hF, hrank⟩ := hfind a
      exact ⟨u2, by simp [Op.apply, hF], by rw [hrank]⟩
    | join a b => exact hjoin a b x
    | connected a b =>
      obtain ⟨res, u2, hC, hrank⟩ := hconn a b
      exact ⟨u2, by simp [Op.apply, hC], by rw [hrank]⟩
  · obtain ⟨pr, hp⟩ := hrep.1 p
    obtain ⟨qr, hq⟩ := hrep.1 q
    obtain ⟨u2, hJ, hsame, hinc⟩ := Join_rank hp hq
    refine ⟨pr, qr, u2, rootOf_eq hp, rootOf_eq hq, hJ, hsame, ?_⟩
    intro hc
    obtain ⟨hrk, h1, h2⟩ := hinc hc
    refine ⟨h1, h2, ?_, ?_⟩
    · rw [hrk, index_store]
      simp
    · intro hx
      rw [hrk]
      exact lookup_store_other _ _ _ _ hx

/-! ## The rank bounds the height -/

theorem rank_along_chain {u : Union}
    (h : ∀ x y, u.parent.lookup x = some y → u.rank.index x < u.rank.index y)
    {x r : Int} {n : Nat} (c : Chain u.parent x n r) :
    u.rank.index x + n ≤ u.rank.index r := by
  induction c with
  | root _ => simp
  | @step a b r n hs _ ih =>
    have := h a b hs
    push_cast
    omega

theorem rank_along_path {u : Union}
    (h : ∀ x y, u.parent.lookup x = some y → u.rank.index x < u.rank.index y)
    {d x : Int} {k : Nat} (c : Path u.parent d k x) :
    u.rank.index d + k ≤ u.rank.index x := by
  induction c with
  | here _ => simp
  | @step a b c n hs _ ih =>
    have := h a b hs
    push_cast
    omega

/-- The rank after the attachment, element by element. -/
theorem attach_rank_index (u : Union) (pr qr z : Int) :
    (attach u pr qr).rank.index z =
      if u.rank.index pr = u.rank.index qr ∧ z = pr then u.rank.index pr + 1
      else u.rank.index z := by
  by_cases he : u.rank.index pr = u.rank.index qr
  · simp only [attach, he, if_true, index_store, true_and]
  · simp only [attach, he, if_false, false_and]

theorem rankOrdered_New : RankOrdered New := by
  constructor
  · intro x y h
    rw [show New.parent.lookup x = none from rfl] at h
    cases h
  · intro x
    rw [show New.rank.index x = 0 from rfl]

theorem rankOrdered_find (u : Union) (p r : Int) (u1 : Union) (_ : Acyclic u.parent)
    (h : RankOrdered u) (hF : Find u p = some (r, u1)) : RankOrdered u1 := by
  obtain ⟨hrank, hroots, habs⟩ := Find_roots hF
  have hr0 : u1.parent.lookup r = none := habs r (Find_some hF).is_root
  refine ⟨?_, fun x => by rw [hrank]; exact h.2 x⟩
  intro x y hxy
  rw [hrank]
  rcases Find_writes hF x with hw | hw
  · rw [hw] at hxy
    exact h.1 x y hxy
  · rw [hw] at hxy
    cases hxy
    have hx1 : RootOf u1.parent x r := RootOf.step hw (RootOf.self hr0)
    obtain ⟨n, c⟩ := (hroots x r).mp hx1
    have hb := rank_along_chain h.1 c
    cases c with
    | root _ =>
      rw [hr0] at hw
      cases hw
    | step _ _ =>
      push_cast at hb
      omega

theorem rankOrdered_attach (u : Union) (pr qr : Int) (_ : Acyclic u.parent)
    (h : RankOrdered u) (hpr : u.parent.lookup pr = none) (_ : u.parent.lookup qr = none)
    (hne : pr ≠ qr) : RankOrdered (attach u pr qr) := by
  have hidx := attach_rank_index u pr qr
  have hge : ∀ z, u.rank.index z ≤ (attach u pr qr).rank.index z := by
    intro z
    rw [hidx]
    split
    · rename_i hz
      rw [hz.2]
      omega
    · exact le_refl _
  have hkeep : ∀ z, z ≠ pr → (attach u pr qr).rank.index z = u.rank.index z := by
    intro z hz
    rw [hidx]
    simp [hz]
  refine ⟨?_, fun x => le_trans (h.2 x) (hge x)⟩
  intro x y hxy
  by_cases hlt : u.rank.index pr < u.rank.index qr
  · simp only [attach, hlt, if_true] at hxy
    rw [lookup_store] at hxy
    by_cases hx : x = pr
    · simp only [hx, if_true, Option.some.injEq] at hxy
      subst hxy
      rw [hx, hidx, hidx]
      have he : ¬ u.rank.index pr = u.rank.index qr := by omega
      simp only [he, false_and, if_false]
      exact hlt
    · simp only [hx, if_false] at hxy
      rw [hkeep x hx]
      exact lt_of_lt_of_le (h.1 x y hxy) (hge y)
  · simp only [attach, hlt, if_false] at hxy
    rw [lookup_store] at hxy
    by_cases hx : x = qr
    · simp only [hx, if_true, Option.some.injEq] at hxy
      subst hxy
      rw [hx, hkeep qr (Ne.symm hne), hidx]
      split <;> omega
    · simp only [hx, if_false] at hxy
      have hxp : x ≠ pr := by
        rintro rfl
        rw [hpr] at hxy
        cases hxy
      rw [hkeep x hxp]
      exact lt_of_lt_of_le (h.1 x y hxy) (hge y)

/-- In every reachable state ranks grow strictly along parent entries. -/
theorem run_rankOrdered (ops : List Op) :
    ∃ u, run New ops = some u ∧ RankOrdered u ∧ Acyclic u.parent :=
  run_preserves RankOrdered
    (fun u op hac hP => apply_preserves RankOrdered rankOrdered_find rankOrdered_attach
      u op hac hP)
    ops New acyclic_empty rankOrdered_New

/-- C19: in every state reachable from `New()`, every element `x` with a parent entry has
`rank(x) < rank(parent[x])`, so that `k` parent steps from any element `d` up to `x` give
`k ≤ rank(x)`; both also hold in the state that `Find(p)` leaves after path compression. -/
theorem rank_bounds_height (ops : List Op) (p : Int) :
    ∃ u, run New ops = some u ∧
      (∀ x y, u.parent.lookup x = some y → u.rank.index x < u.rank.index y) ∧
      (∀ d k x, Path u.parent d k x → (k : Int) ≤ u.rank.index x) ∧
      ∃ r u2, Find u p = some (r, u2) ∧
        (∀ x y, u2.parent.lookup x = some y → u2.rank.index x < u2.rank.index y) ∧
        (∀ d k x, Path u2.parent d k x → (k : Int) ≤ u2.rank.index x) := by
  obtain ⟨u, hrun, hro, hac⟩ := run_rankOrdered ops
  have key : ∀ v : Union, RankOrdered v →
      ∀ d k x, Path v.parent d k x → (k : Int) ≤ v.rank.index x := by
    intro v hv d k x hpath
    have h1 := rank_along_path hv.1 hpath
    have h2 := hv.2 d
    omega
  obtain ⟨r, hr⟩ := hac p
  obtain ⟨u2, hF, -⟩ := Find_spec hr
  have hro2 := rankOrdered_find u p r u2 hac hro hF
  exact ⟨u, hrun, hro.1, key u hro, r, u2, hF, hro2.1, key u2 hro2⟩

/-! ## The size of a group -/

theorem groupsLarge_New : GroupsLarge New := by
  intro r _
  refine ⟨{r}, fun a => ?_, ?_⟩
  · rw [Finset.mem_singleton]
    constructor
    · rintro rfl
      exact RootOf.self (lookup_empty a)
    · intro h
      exact (h.eq_of_root (lookup_empty a)).symm
  · rw [show New.rank.index r = 0 from rfl]
    simp

theorem groupsLarge_find (u : Union) (p r : Int) (u1 : Union) (_ : Acyclic u.parent)
    (h : GroupsLarge u) (hF : Find u p = some (r, u1)) : GroupsLarge u1 := by
  obtain ⟨hrank, hroots, -⟩ := Find_roots hF
  intro s hs
  have hs0 : u.parent.lookup s = none := ((hroots s s).mp (RootOf.self hs)).is_root
  obtain ⟨S, hmem, hcard⟩ := h s hs0
  refine ⟨S, fun a => ?_, by rw [hrank]; exact hcard⟩
  rw [hmem, hroots]

theorem groupsLarge_attach (u : Union) (pr qr : Int) (hac : Acyclic u.parent)
    (h : GroupsLarge u) (hpr : u.parent.lookup pr = none) (hqr : u.parent.lookup qr = none)
    (hne : pr ≠ qr) : GroupsLarge (attach u pr qr) := by
  obtain ⟨t, htm, hte, hmap⟩ := attach_roots hpr hqr hne
  have hback : ∀ a r, RootOf (attach u pr qr).parent a r →
      ∃ s, RootOf u.parent a s ∧ r = if s = pr ∨ s = qr then t else s := by
    intro a r har
    obtain ⟨s, hs⟩ := hac a
    exact ⟨s, hs, RootOf.root_unique (hmap a s hs) har⟩
  obtain ⟨Sp, hSp, hcp⟩ := h pr hpr
  obtain ⟨Sq, hSq, hcq⟩ := h qr hqr
  intro r hr
  by_cases hrt : r = t
  · subst hrt
    refine ⟨Sp ∪ Sq, fun a => ?_, ?_⟩
    · rw [Finset.mem_union, hSp, hSq]
      constructor
      · rintro (ha | ha)
        · have := hmap a pr ha
          simpa using this
        · have := hmap a qr ha
          simpa using this
      · intro ha
        obtain ⟨s, hs, hrs⟩ := hback a r ha
        by_cases hc : s = pr ∨ s = qr
        · rcases hc with rfl | rfl
          · exact Or.inl hs
          · exact Or.inr hs
        · simp only [hc, if_false] at hrs
          rw [← hrs] at hc
          exact absurd htm hc
    · have hdisj : Disjoint Sp Sq := by
        rw [Finset.disjoint_left]
        intro a ha hb
        exact hne (RootOf.root_unique ((hSq a).mp hb) ((hSp a).mp ha))
      rw [Finset.card_union_of_disjoint hdisj, attach_rank_index]
      split
      · rename_i he
        have h1 : (u.rank.index pr + 1).toNat ≤ (u.rank.index pr).toNat + 1 := by omega
        have h2 : 2 ^ (u.rank.index pr + 1).toNat ≤ 2 ^ ((u.rank.index pr).toNat + 1) :=
          Nat.pow_le_pow_right (by decide) h1
        rw [← he.1] at hcq
        rw [pow_succ] at h2
        omega
      · rcases htm with rfl | rfl
        · omega
        · omega
  · have hr0 : u.parent.lookup r = none := by
      obtain ⟨s, hs, hrs⟩ := hback r r (RootOf.self hr)
      by_cases hc : s = pr ∨ s = qr
      · simp only [hc, if_true] at hrs
        exact absurd hrs hrt
      · simp only [hc, if_false] at hrs
        rw [hrs]
        exact hs.is_root
    have hrn : ¬ (r = pr ∨ r = qr) := by
      intro hc
      have := hmap r r (RootOf.self hr0)
      simp only [hc, if_true] at this
      exact hrt (this.eq_of_root hr).symm
    obtain ⟨S, hS, hcard⟩ := h r hr0
    refine ⟨S, fun a => ?_, ?_⟩
    · rw [hS]
      constructor
      · intro ha
        have := hmap a r ha
        simpa only [hrn, if_false] using this
      · intro ha
        obtain ⟨s, hs, hrs⟩ := hback a r ha
        by_cases hc : s = pr ∨ s = qr
        · simp only [hc, if_true] at hrs
          exact absurd hrs hrt
        · simp only [hc, if_false] at hrs
          rw [hrs]
          exact hs
    · rw [attach_rank_index]
      have hrp : r ≠ pr := fun hc => hrn (Or.inl hc)
      simp only [hrp, and_false, if_false]
      exact hcard

/-- In every reachable state every root has a group of at least `2 ^ rank` elements. -/
theorem run_groupsLarge (ops : List Op) :
    ∃ u, run New ops = some u ∧ GroupsLarge u ∧ Acyclic u.parent :=
  run_preserves GroupsLarge
    (fun u op hac hP => apply_preserves GroupsLarge groupsLarge_find groupsLarge_attach
      u op hac hP)
    ops New acyclic_empty groupsLarge_New

/-- C20: in every state reachable from `New()`, for every root `r` the group of `r`, the
set of the elements `a` with `Find(a) = r`, is finite and has at least `2 ^ rank(r)`
elements; so the rank of `r`, and with it the number of parent steps from any element up to
`r`, is at most the logarithm to base 2 of the size of the group. -/
theorem group_size_bound (ops : List Op) (u : Union) (r : Int)
    (hrun : run New ops = some u) (hr : u.parent.lookup r = none) :
    ∃ S : Finset Int, (∀ a, a ∈ S ↔ rootOf u a = some r) ∧
      0 ≤ u.rank.index r ∧
      2 ^ (u.rank.index r).toNat ≤ S.card ∧
      (u.rank.index r).toNat ≤ Nat.log 2 S.card ∧
      (∀ d k, Path u.parent d k r → k ≤ Nat.log 2 S.card) := by
  obtain ⟨v, hv, hgl, -⟩ := run_groupsLarge ops
  rw [hrun] at hv
  cases hv
  obtain ⟨w, hw, hro, -⟩ := run_rankOrdered ops
  rw [hrun] at hw
  cases hw
  obtain ⟨S, hS, hcard⟩ := hgl r hr
  have hlog : (u.rank.index r).toNat ≤ Nat.log 2 S.card :=
    Nat.le_log_of_pow_le (by decide) hcard
  refine ⟨S, fun a => ?_, hro.2 r, hcard, hlog, ?_⟩
  · rw [hS]
    exact ⟨rootOf_eq, rootOf_some⟩
  · intro d k hpath
    have h1 := rank_along_path hro.1 hpath
    have h2 := hro.2 d
    have h3 : k ≤ (u.rank.index r).toNat := by omega
    exact le_trans h3 hlog

theorem group_size_bound_witness :
    run New [Op.join 1 2, Op.join 3 4, Op.join 1 3] =
        some ⟨⟨[(3, 1), (4, 3), (2, 1)]⟩, ⟨[(1, 2), (3, 1)]⟩⟩ ∧
      (⟨[(3, 1), (4, 3), (2, 1)]⟩ : GoMap).lookup 1 = none ∧
      (⟨[(1, 2), (3, 1)]⟩ : GoMap).index 1 = 2 ∧
      ∃ S : Finset Int,
        (∀ a, a ∈ S ↔ rootOf ⟨⟨[(3, 1), (4, 3), (2, 1)]⟩, ⟨[(1, 2), (3, 1)]⟩⟩ a = some 1) ∧
        2 ^ 2 ≤ S.card ∧ 2 ≤ Nat.log 2 S.card := by
  refine ⟨by decide, by decide, by decide, ?_⟩
  obtain ⟨S, hS, -, hcard, hlog, -⟩ :=
    group_size_bound [Op.join 1 2, Op.join 3 4, Op.join 1 3]
      ⟨⟨[(3, 1), (4, 3), (2, 1)]⟩, ⟨[(1, 2), (3, 1)]⟩⟩ 1 (by decide) (by decide)
  exact ⟨S, hS, hcard, hlog⟩

/-! ## Joining an element with itself -/

/-- A second `Find(p)` right after a first one changes no parent entry. -/
theorem Find_again {u u1 u2 : Union} {p r : Int} (h1 : Find u p = some (r, u1))
    (h2 : Find u1 p = some (r, u2)) (x : Int) :
    u2.parent.lookup x = u1.parent.lookup x := by
  obtain ⟨v, hv, -, -, -, hhead, habs⟩ := Find_spec (Find_some h1)
  rw [h1] at hv
  simp only [Option.some.injEq, Prod.mk.injEq, true_and] at hv
  subst hv
  have hr1 : u1.parent.lookup r = none := habs r (Find_some h1).is_root
  by_cases hx : Relation.ReflTransGen (ParentStep u1.parent) p x ∧ x ≠ r
  · obtain ⟨hreach, hne⟩ := hx
    rw [(Find_exact h2 x).1 hreach hne]
    rcases hreach.cases_head with hpx | ⟨c, hs, hcx⟩
    · subst hpx
      exact (hhead hne).symm
    · have hpr : p ≠ r := by
        rintro rfl
        unfold ParentStep at hs
        rw [hr1] at hs
        cases hs
      unfold ParentStep at hs
      rw [hhead hpr] at hs
      cases hs
      exact absurd (reach_of_root hr1 hcx) hne
  · refine (Find_exact h2 x).2 ?_
    by_cases hreach : Relation.ReflTransGen (ParentStep u1.parent) p x
    · right
      by_contra hne
      exact hx ⟨hreach, hne⟩
    · exact Or.inl hreach

/-- C10, amended: in every state reachable from `New()`, `Join(p, p)` leaves the rank map
equal and the root of `p` and of every other element unchanged, and it changes the parent
map by the path compression of the chain of `p` only: with `r` the root of `p`, every
element other than `r` on the parent chain from `p` before the call has the parent entry
`r` afterwards, the parent entry of every element not on that chain is unchanged, and `r`
has no parent entry before and after the call. -/
theorem join_self (ops : List Op) (p a : Int) :
    ∃ u u2 r ra, run New ops = some u ∧ Join u p p = some u2 ∧ u2.rank = u.rank ∧
      rootOf u p = some r ∧ rootOf u2 p = some r ∧
      rootOf u a = some ra ∧ rootOf u2 a = some ra ∧
      (∀ x, Relation.ReflTransGen (ParentStep u.parent) p x → x ≠ r →
        u2.parent.lookup x = some r) ∧
      (∀ x, ¬ Relation.ReflTransGen (ParentStep u.parent) p x →
        u2.parent.lookup x = u.parent.lookup x) ∧
      u.parent.lookup r = none ∧ u2.parent.lookup r = none := by
  obtain ⟨u, hrun, hrep⟩ := run_New ops
  obtain ⟨r, hr⟩ := hrep.1 p
  obtain ⟨ra, ha⟩ := hrep.1 a
  obtain ⟨u1, hF1, hrank1, hroots1, -⟩ := Find_spec hr
  obtain ⟨u2, hF2, hrank2, hroots2, -⟩ := Find_spec ((hroots1 p r).mpr hr)
  have hJ : Join u p p = some u2 := by simp [Join, hF1, hF2]
  have hto : ∀ x s, RootOf u.parent x s → RootOf u2.parent x s := fun x s h =>
    (hroots2 x s).mpr ((hroots1 x s).mpr h)
  refine ⟨u, u2, r, ra, hrun, hJ, by rw [hrank2, hrank1], rootOf_eq hr,
    rootOf_eq (hto p r hr), rootOf_eq ha, rootOf_eq (hto a ra ha), ?_, ?_, hr.is_root,
    (hto p r hr).is_root⟩
  · intro x hx hne
    rw [Find_again hF1 hF2 x]
    exact (Find_exact hF1 x).1 hx hne
  · intro x hx
    rw [Find_again hF1 hF2 x]
    exact (Find_exact hF1 x).2 (Or.inl hx)

end union
